import Mathlib

/-!
# Traffic-count dataset (`aips_go/main.go`): embedding and verified properties

The Go program is embedded shallowly:

* a Go `string` / `[]byte` is the list of its characters (`GoString`);
* Go `int` and `int64` are mathematical integers, reduced with `wrapInt`
  (two's complement, 64 bit) wherever the program adds;
* the in-place sorts return the new dataset; `GetTopThreeEntriesByCount`,
  which sorts its receiver, returns the new dataset together with its result;
* a run-time panic or `log.Fatal` is an `Except.error` carrying a `Fault`.

The parts of the Go standard library the program calls (`strings.Split`,
`strings.Contains`, `strings.TrimSpace`, `strconv.Atoi`, `time.Unix`,
`Time.Format` and `time.Parse` for the layout `time.RFC3339`) are modelled
after the library's own algorithms.
-/

namespace Aips

/-! ## Strings -/

/-- A Go string, as the sequence of its characters. -/
abbrev GoString := List Char

/-- The Go expression `strings.Split(s, sep)` for a one-character separator (every call in
`main.go` splits on one of "\n", " ", "+", "T"): the pieces of `s` between occurrences
of `sep`, never an empty slice. -/
def Split : GoString → Char → List GoString
  | [], _ => [[]]
  | c :: cs, sep =>
    if c = sep then [] :: Split cs sep
    else
      match Split cs sep with
      | [] => [[c]]
      | w :: ws => (c :: w) :: ws

/-- Indexing `x[0]` of a slice produced by `Split` (which is never empty). -/
def at0 (xs : List GoString) : GoString := xs.headD []

/-- The Go expression `strings.Contains(s, substr)`: `substr` occurs somewhere within `s`. -/
def Contains : GoString → GoString → Bool
  | [], sub => sub.isEmpty
  | c :: cs, sub => sub.isPrefixOf (c :: cs) || Contains cs sub

/-- White space in the sense of Go `unicode.IsSpace`. -/
def isSpace (c : Char) : Bool :=
  let n := c.toNat
  n == 9 || n == 10 || n == 11 || n == 12 || n == 13 || n == 32 || n == 0x85 || n == 0xA0 ||
  n == 0x1680 || (0x2000 ≤ n && n ≤ 0x200a) || n == 0x2028 || n == 0x2029 || n == 0x202f ||
  n == 0x205f || n == 0x3000

/-- The Go expression `strings.TrimSpace(s)`: leading and trailing white space removed. -/
def TrimSpace (s : GoString) : GoString :=
  ((s.dropWhile isSpace).reverse.dropWhile isSpace).reverse

/-! ## Machine integers -/

/-- Two's-complement reduction of an integer to the 64-bit range of Go `int`. -/
def wrapInt (x : Int) : Int :=
  (x + 9223372036854775808) % 18446744073709551616 - 9223372036854775808

/-! ## Calendar arithmetic of package `time`

The model follows the Go releases whose package `time` has `absoluteZeroYear = -292277022399`:
absolute time counts seconds from 1 January of that year, and `time.Unix(ts, 0)` wraps around
for `ts` below -9223372028715321600. (Later releases count from 1 March of the year before,
so that the wrap-around starts 306 days lower. A property that depends on the absence of a
wrap-around is stated with `noWrap`, and a timestamp that satisfies it wraps in neither.) -/

/-- Seconds from the absolute epoch of package `time` (year -292277022399) to the Unix epoch. -/
def unixToAbsolute : Int := 9223372028715321600

/-- The year of the absolute epoch. -/
def absoluteZeroYear : Int := -292277022399

/-- Table `daysBefore` of package `time`: days in a non-leap year before each month. -/
def daysBefore : List Nat := [0, 31, 59, 90, 120, 151, 181, 212, 243, 273, 304, 334, 365]

/-- Gregorian leap year test. -/
def isLeap (year : Int) : Bool := year % 4 == 0 && (year % 100 != 0 || year % 400 == 0)

/-- Absolute seconds of `time.Unix(ts, 0)` in a zone of offset 0:
`uint64(ts + (unixToInternal + internalToAbsolute))`. -/
def unixAbs (ts : Int) : Nat := ((ts + unixToAbsolute) % 18446744073709551616).toNat

/-- Month (1..12) and day of month from the year and the zero-based day of the year
(second half of `absDate`). -/
def monthDay (year : Int) (yday : Nat) : Nat × Nat :=
  if isLeap year && yday == 31 + 29 - 1 then (2, 29)
  else
    let day := if isLeap year && decide (yday > 31 + 29 - 1) then yday - 1 else yday
    let month := day / 31
    let e := daysBefore.getD (month + 1) 0
    if day ≥ e then (month + 2, day - e + 1)
    else (month + 1, day - daysBefore.getD month 0 + 1)

/-- Function `absDate` of package `time`: year, month and day of an absolute time. -/
def absDate (abs : Nat) : Int × Nat × Nat :=
  let d := abs / 86400
  let n := d / 146097
  let y := 400 * n
  let d := d - 146097 * n
  let n := d / 36524
  let n := n - n / 4
  let y := y + 100 * n
  let d := d - 36524 * n
  let n := d / 1461
  let y := y + 4 * n
  let d := d - 1461 * n
  let n := d / 365
  let n := n - n / 4
  let y := y + n
  let d := d - 365 * n
  let year : Int := (y : Int) + absoluteZeroYear
  (year, monthDay year d)

/-- Function `daysSinceEpoch` of package `time`: days from the absolute epoch to 1 January of
`year`. -/
def daysSinceEpoch (year : Int) : Nat :=
  let y := (year - absoluteZeroYear).toNat
  let n := y / 400
  let y := y - 400 * n
  let d := 146097 * n
  let n := y / 100
  let y := y - 100 * n
  let d := d + 36524 * n
  let n := y / 4
  let y := y - 4 * n
  let d := d + 1461 * n
  d + 365 * y

/-- Days in a month (`daysIn` of package `time`). -/
def daysIn (month : Nat) (year : Int) : Nat :=
  if month == 2 && isLeap year then 29
  else daysBefore.getD month 0 - daysBefore.getD (month - 1) 0

/-- Unix seconds of `time.Date(year, month, day, hour, min, sec, 0, time.UTC)` for fields that
are already in range (as `time.Parse` guarantees). -/
def dateUnix (year : Int) (month day hour min sec : Nat) : Int :=
  let d := daysSinceEpoch year + daysBefore.getD (month - 1) 0 +
    (if isLeap year && decide (month ≥ 3) then 1 else 0) + (day - 1)
  let abs := d * 86400 + (hour * 3600 + min * 60 + sec)
  (abs : Int) - unixToAbsolute

/-! ## Formatting `time.RFC3339` -/

/-- The decimal digit character of `n % 10`. -/
def digit (n : Nat) : Char := Char.ofNat (48 + n % 10)

/-- Decimal digits of `n`, least significant first, at least one digit. -/
def digitsRev : Nat → Nat → GoString
  | 0, _ => []
  | fuel + 1, n => digit n :: (if n / 10 = 0 then [] else digitsRev fuel (n / 10))

/-- Decimal representation of a natural number. -/
def decimalDigits (n : Nat) : GoString := (digitsRev (n + 1) n).reverse

/-- Function `appendInt` of package `time`: a sign for negative values, then the decimal
digits padded with zeros to `width`. -/
def appendInt (x : Int) (width : Nat) : GoString :=
  let u := x.natAbs
  let sign : GoString := if x < 0 then ['-'] else []
  if width = 2 ∧ u < 100 then sign ++ [digit (u / 10), digit u]
  else if width = 4 ∧ u < 10000 then
    sign ++ [digit (u / 1000), digit (u / 100), digit (u / 10), digit u]
  else
    let ds := decimalDigits u
    sign ++ List.replicate (width - ds.length) '0' ++ ds

/-- The text `t.Format(time.RFC3339)` for a time of zone offset 0, from its absolute seconds:
`2006-01-02T15:04:05Z`. -/
def formatRFC3339 (abs : Nat) : GoString :=
  let ymd := absDate abs
  let s := abs % 86400
  let hour := s / 3600
  let s := s - hour * 3600
  let min := s / 60
  let sec := s - min * 60
  appendInt ymd.1 4 ++ '-' :: appendInt ymd.2.1 2 ++ '-' :: appendInt ymd.2.2 2 ++
    'T' :: appendInt hour 2 ++ ':' :: appendInt min 2 ++ ':' :: appendInt sec 2 ++ ['Z']

/-! ## Parsing: `strconv.Atoi` and `time.Parse(time.RFC3339, _)` -/

/-- Value of a digit character. -/
def digitVal (c : Char) : Nat := c.toNat - 48

/-- Outcome of the digit loop of `strconv.ParseUint`. -/
inductive UintResult where
  | value (n : Nat)
  | syntaxError
  | rangeError
deriving DecidableEq

/-- The digit loop of `strconv.ParseUint(s, 10, 64)`, left to right with the value `n` read so
far: a character that is not a digit is a syntax error; a value that leaves `uint64` is a
range error, returned at the digit at which it happens (`cutoff` is 1844674407370955162). -/
def parseUintLoop : GoString → Nat → UintResult
  | [], n => .value n
  | c :: cs, n =>
    if !c.isDigit then .syntaxError
    else if n ≥ 1844674407370955162 then .rangeError
    else if n * 10 + digitVal c > 18446744073709551615 then .rangeError
    else parseUintLoop cs (n * 10 + digitVal c)

/-- The Go call `strconv.Atoi(s)`: the value and whether the returned error is non-nil. An
optional sign, then `ParseUint` on the rest: a syntax error returns 0, a range error or a value
out of the range of `int` returns the nearest bound. -/
def Atoi (s : GoString) : Int × Bool :=
  match s with
  | [] => (0, true)
  | c :: r =>
    let body := if c = '-' ∨ c = '+' then r else s
    if body.isEmpty then (0, true)
    else
      match parseUintLoop body 0 with
      | .syntaxError => (0, true)
      | .rangeError =>
        if c = '-' then (-9223372036854775808, true) else (9223372036854775807, true)
      | .value v =>
        if c = '-' then
          if v > 9223372036854775808 then (-9223372036854775808, true) else (-(v : Int), false)
        else
          if v ≥ 9223372036854775808 then (9223372036854775807, true) else ((v : Int), false)

/-- Function `getnum` of package `time`: a one- or two-digit number at the head of `s`;
when `fixed`, exactly two digits are required. -/
def getnum (s : GoString) (fixed : Bool) : Option (Nat × GoString) :=
  match s with
  | [] => none
  | c0 :: rest =>
    if !c0.isDigit then none
    else
      match rest with
      | [] => if fixed then none else some (digitVal c0, [])
      | c1 :: rest1 =>
        if c1.isDigit then some (digitVal c0 * 10 + digitVal c1, rest1)
        else if fixed then none else some (digitVal c0, rest)

/-- A literal layout character must be the next character of the value. -/
def skipChar (s : GoString) (c : Char) : Option GoString :=
  match s with
  | [] => none
  | x :: r => if x = c then some r else none

/-- The four-digit year of the layout element `2006`. -/
def parseYear (s : GoString) : Option (Int × GoString) :=
  match s with
  | a :: b :: c :: d :: rest =>
    if a.isDigit && b.isDigit && c.isDigit && d.isDigit then
      some (((digitVal a * 1000 + digitVal b * 100 + digitVal c * 10 + digitVal d : Nat) : Int),
        rest)
    else none
  | _ => none

/-- A fractional second in the value that the layout does not mention is accepted and skipped:
a period or comma followed by at least one digit, then all further digits. -/
def skipFraction (s : GoString) : GoString :=
  match s with
  | p :: d :: rest =>
    if (p = '.' ∨ p = ',') ∧ d.isDigit then rest.dropWhile Char.isDigit else s
  | _ => s

/-- The layout element `Z07:00`: either `Z`, or a sign and `hh:mm`. Returns the zone offset in
seconds and the rest of the value. -/
def parseZone (s : GoString) : Option (Int × GoString) :=
  match s with
  | 'Z' :: rest => some (0, rest)
  | sg :: h1 :: h2 :: c :: m1 :: m2 :: rest =>
    if c ≠ ':' then none
    else
      match getnum [h1, h2] true, getnum [m1, m2] true with
      | some (hr, _), some (mm, _) =>
        if hr > 24 ∨ mm > 60 then none
        else if sg = '+' then some ((((hr * 60 + mm) * 60 : Nat) : Int), rest)
        else if sg = '-' then some (-(((hr * 60 + mm) * 60 : Nat) : Int), rest)
        else none
      | _, _ => none
  | _ => none

/-- A range or syntax check of `time.Parse`: failing it makes the parse fail. -/
def require (ok : Bool) : Option Unit := if ok then some () else none

/-- The layout elements `2006-01-02`: year, month (1..12) and day, and the rest. -/
def parseDate (value : GoString) : Option (Int × Nat × Nat × GoString) := do
  let (year, v) ← parseYear value
  let v ← skipChar v '-'
  let (month, v) ← getnum v true
  require (decide (0 < month ∧ month ≤ 12))
  let v ← skipChar v '-'
  let (day, v) ← getnum v true
  pure (year, month, day, v)

/-- The layout elements `15:04:05`: hour (one or two digits), minute and second, an optional
fractional second, and the rest. -/
def parseClock (value : GoString) : Option (Nat × Nat × Nat × GoString) := do
  let (hour, v) ← getnum value false
  require (decide (hour < 24))
  let v ← skipChar v ':'
  let (min, v) ← getnum v true
  require (decide (min < 60))
  let v ← skipChar v ':'
  let (sec, v) ← getnum v true
  require (decide (sec < 60))
  pure (hour, min, sec, skipFraction v)

/-- The Go call `time.Parse(time.RFC3339, value)` followed by `.Unix()`: `none` when `Parse`
returns an error. -/
def parseRFC3339 (value : GoString) : Option Int := do
  let (year, month, day, v) ← parseDate value
  let v ← skipChar v 'T'
  let (hour, min, sec, v) ← parseClock v
  let (offset, v) ← parseZone v
  require v.isEmpty
  require (decide (1 ≤ day ∧ day ≤ daysIn month year))
  pure (dateUnix year month day hour min sec - offset)

/-! ## Data model (`main.go`) -/

/-- One half-hour observation: counted cars and Unix time of the start of the period. -/
structure CarCountEntry where
  /-- Counted cars (Go `int`). -/
  Count : Int
  /-- Unix time (Go `int64`). -/
  Timestamp : Int
deriving DecidableEq

/-- The dataset: the slice of entries. -/
structure CarCountData where
  /-- The entries in their current order. -/
  Entries : List CarCountEntry
deriving DecidableEq

/-- A day and the cars counted on it. -/
structure DailyTotal where
  /-- The day, as text. -/
  Day : GoString
  /-- The total. -/
  Count : Int
deriving DecidableEq

/-- How a run ends when it does not return: `log.Fatal`, or an index-out-of-range panic. -/
inductive Fault where
  | fatal
  | indexOutOfRange
deriving DecidableEq

/-- Constructor `NewCarCountEntry`. -/
def NewCarCountEntry (c : Int) (ts : Int) : CarCountEntry := ⟨c, ts⟩

/-! ## Timestamp codec (`main.go`) -/

/-- Function `ParseTimestamp`: appends "Z", parses as RFC3339, `log.Fatal` on error. -/
def ParseTimestamp (iso : GoString) : Except Fault Int :=
  match parseRFC3339 (iso ++ ['Z']) with
  | some t => .ok t
  | none => .error .fatal

/-- Function `Timestamp2String`: the RFC3339 text of the time in a zone of offset 0, split
on "+". -/
def Timestamp2String (ts : Int) : List GoString := Split (formatRFC3339 (unixAbs ts)) '+'

/-- The day text `strings.Split(Timestamp2String(ts)[0], "T")[0]` that `GetUniqueDays`
collects. -/
def dayOf (ts : Int) : GoString := at0 (Split (at0 (Timestamp2String ts)) 'T')

/-! ## Sorting (`main.go`) -/

/-- One step of the inner loop: if the entry at `j` has a greater key than the one at `j+1`,
the two are swapped. -/
def swapAt (key : CarCountEntry → Int) : Nat → List CarCountEntry → List CarCountEntry
  | _, [] => []
  | _, [a] => [a]
  | 0, a :: b :: r => if key a > key b then b :: a :: r else a :: b :: r
  | j + 1, a :: r => a :: swapAt key j r

/-- The inner loop `for j := ...; j < len-1; j++`, with the number of iterations left and the
current `j`. -/
def innerLoop (key : CarCountEntry → Int) : Nat → Nat → List CarCountEntry → List CarCountEntry
  | 0, _, es => es
  | k + 1, j, es => innerLoop key k (j + 1) (swapAt key j es)

/-- The outer loop `for i := ...; i < len; i++`, with the number of iterations left. -/
def outerLoop (key : CarCountEntry → Int) : Nat → List CarCountEntry → List CarCountEntry
  | 0, es => es
  | k + 1, es => outerLoop key k (innerLoop key (es.length - 1) 0 es)

/-- Method `SortByTimestamp`. -/
def SortByTimestamp (dataset : CarCountData) : CarCountData :=
  ⟨outerLoop (fun e => e.Timestamp) dataset.Entries.length dataset.Entries⟩

/-- Method `SortByCount`. -/
def SortByCount (dataset : CarCountData) : CarCountData :=
  ⟨outerLoop (fun e => e.Count) dataset.Entries.length dataset.Entries⟩

/-! ## Queries (`main.go`) -/

/-- Indexing `es[idx]` with Go's bounds check. -/
def entryAt (es : List CarCountEntry) (idx : Int) : Except Fault CarCountEntry :=
  if idx < 0 then .error .indexOutOfRange
  else
    match es[idx.toNat]? with
    | some e => .ok e
    | none => .error .indexOutOfRange

/-- The loop `for i := ...; i < 3; i++` of `GetTopThreeEntriesByCount`, with the number of
iterations left, the current `i` and the slice built so far. -/
def topThreeLoop (es : List CarCountEntry) :
    Nat → Nat → List CarCountEntry → Except Fault (List CarCountEntry)
  | 0, _, acc => .ok acc
  | k + 1, i, acc =>
    match entryAt es ((es.length : Int) - 1 - (i : Int)) with
    | .ok e => topThreeLoop es k (i + 1) (acc ++ [e])
    | .error f => .error f

/-- Method `GetTopThreeEntriesByCount`: sorts the receiver by count, then reads its last three
entries from the end. Returns the receiver after the call and the result. -/
def GetTopThreeEntriesByCount (c : CarCountData) :
    CarCountData × Except Fault (List CarCountEntry) :=
  let c1 := SortByCount c
  (c1, topThreeLoop c1.Entries 3 0 [])

/-- Method `GetDailyTotals`. -/
def GetDailyTotals (c : CarCountData) (days : List GoString) : List DailyTotal :=
  days.map fun day =>
    ⟨day, c.Entries.foldl
      (fun total e =>
        if Contains (at0 (Timestamp2String e.Timestamp)) day then wrapInt (total + e.Count)
        else total) 0⟩

/-- Method `GetTotalCount`. -/
def GetTotalCount (c : CarCountData) : Int :=
  c.Entries.foldl (fun total e => wrapInt (total + e.Count)) 0

/-- Method `GetUniqueDays`. -/
def GetUniqueDays (c : CarCountData) : List GoString :=
  c.Entries.foldl
    (fun uniqueDays e =>
      let toCheck := dayOf e.Timestamp
      if uniqueDays.contains toCheck then uniqueDays else uniqueDays ++ [toCheck]) []

/-! ## Construction (`main.go`) -/

/-- Body of the loop of `BuildDataset` for one line: the count is read from the second
space-separated piece (an `Atoi` error is ignored), the timestamp from the first. -/
def parseRecord (line : GoString) : Except Fault CarCountEntry :=
  let sp2 := Split line ' '
  match sp2[1]? with
  | none => .error .indexOutOfRange
  | some tok =>
    let c := (Atoi (TrimSpace tok)).1
    match ParseTimestamp (TrimSpace (at0 sp2)) with
    | .ok ts => .ok (NewCarCountEntry c ts)
    | .error f => .error f

/-- The loop of `BuildDataset` over the lines still to read. -/
def buildLoop : List GoString → CarCountData → Except Fault CarCountData
  | [], dataset => .ok dataset
  | line :: rest, dataset =>
    match parseRecord line with
    | .ok e => buildLoop rest ⟨dataset.Entries ++ [e]⟩
    | .error f => .error f

/-- Function `BuildDataset`: splits on "\n" and reads every piece but the last. -/
def BuildDataset (data : GoString) : Except Fault CarCountData :=
  buildLoop (Split data '\n').dropLast ⟨[]⟩

/-! ## Predicates used to state the properties -/

/-- The timestamp lies in the years 0000 to 9999, the years the four-digit layout of
`ParseTimestamp` can produce. -/
def fourDigitYear (ts : Int) : Prop := -62167219200 ≤ ts ∧ ts < 253402300800

/-- The text is a day in the grammar `YYYY-MM-DD`: ten characters, digits around two dashes. -/
def isDayString (s : GoString) : Bool :=
  match s with
  | [y1, y2, y3, y4, p, m1, m2, q, d1, d2] =>
    y1.isDigit && y2.isDigit && y3.isDigit && y4.isDigit && p == '-' && m1.isDigit &&
      m2.isDigit && q == '-' && d1.isDigit && d2.isDigit
  | _ => false

/-- The sum of the counts of a list of entries, as a mathematical integer. -/
def countSum (es : List CarCountEntry) : Int := (es.map fun e => e.Count).sum

/-- The entries whose day text is `day`. -/
def entriesOn (day : GoString) (es : List CarCountEntry) : List CarCountEntry :=
  es.filter fun e => decide (dayOf e.Timestamp = day)

/-- Position of the first occurrence of `a` in a list (the length when there is none). -/
def firstIndex (a : GoString) : List GoString → Nat
  | [] => 0
  | x :: l => if x = a then 0 else firstIndex a l + 1

/-- One pass of adjacent compare-and-swap steps, told by the entry being carried forward:
`carry key a l` is the pass over `a :: l`. -/
def carry (key : CarCountEntry → Int) : CarCountEntry → List CarCountEntry → List CarCountEntry
  | a, [] => [a]
  | a, b :: r => if key a > key b then b :: carry key a r else a :: carry key b r

/-- One full pass over a list. -/
def bubble (key : CarCountEntry → Int) : List CarCountEntry → List CarCountEntry
  | [] => []
  | a :: l => carry key a l

/-- The stable ascending sort by a key, by insertion. -/
def stableSortBy (key : CarCountEntry → Int) (es : List CarCountEntry) : List CarCountEntry :=
  es.insertionSort fun a b => key a ≤ key b

/-- The text made of the given lines, each followed by a newline, and then `tail`. -/
def joinLines : List GoString → GoString → GoString
  | [], tail => tail
  | l :: ls, tail => l ++ '\n' :: joinLines ls tail

/-- The value of a string of decimal digits. -/
def decimalValue (s : GoString) : Nat := Nat.ofDigits 10 (s.map digitVal).reverse

/-- The fixture of `main_test.go`: the (count, epoch seconds) pairs of `testData`, in order. -/
def testData : CarCountData :=
  ⟨[⟨5, 1638334800⟩, ⟨12, 1638336600⟩, ⟨14, 1638338400⟩, ⟨15, 1638340200⟩, ⟨25, 1638342000⟩,
    ⟨46, 1638343800⟩, ⟨42, 1638345600⟩, ⟨9, 1638370800⟩, ⟨11, 1638372600⟩, ⟨0, 1638401400⟩,
    ⟨18, 1638696600⟩, ⟨15, 1638700200⟩, ⟨7, 1638703800⟩, ⟨6, 1638707400⟩, ⟨9, 1638711000⟩,
    ⟨11, 1638714600⟩, ⟨15, 1638718200⟩, ⟨33, 1638986400⟩, ⟨28, 1638990000⟩, ⟨25, 1638993600⟩,
    ⟨21, 1638997200⟩, ⟨16, 1639000800⟩, ⟨11, 1639004400⟩, ⟨4, 1639008000⟩]⟩

/-- The timestamp does not wrap around in `time.Unix(ts, 0)`: the absolute time is the sum
`ts + unixToAbsolute` itself, which lies in the range of `uint64`. Among the `int64` values
these are the timestamps from -9223372028715321600 on (`noWrap_iff`). -/
def noWrap (ts : Int) : Prop := ((unixAbs ts : Nat) : Int) = ts + unixToAbsolute

/-- The date part of a formatted timestamp: year, month and day as `Format` writes them. -/
def dayText (ymd : Int × Nat × Nat) : GoString :=
  appendInt ymd.1 4 ++ '-' :: appendInt ymd.2.1 2 ++ '-' :: appendInt ymd.2.2 2

/-- The calendar date (year, month, day) that a day text denotes: an optional minus sign and
the digits of the year (any number of them), then two digits each for the month and the day,
separated by "-". -/
def parseDay (s : GoString) : Option (Int × Nat × Nat) :=
  let neg : Bool := s.head? == some '-'
  match Split (if neg then s.tail else s) '-' with
  | [y, m, d] =>
    if !y.isEmpty && y.all Char.isDigit && m.length == 2 && m.all Char.isDigit &&
        d.length == 2 && d.all Char.isDigit then
      some (if neg then -(decimalValue y : Int) else (decimalValue y : Int),
        decimalValue m, decimalValue d)
    else none
  | _ => none

/-- Calendar order of dates: an earlier year, or the same year and an earlier month, or the
same year and month and an earlier day. -/
def dateLt (a b : Int × Nat × Nat) : Bool :=
  decide (a.1 < b.1 ∨ (a.1 = b.1 ∧ (a.2.1 < b.2.1 ∨ (a.2.1 = b.2.1 ∧ a.2.2 < b.2.2))))

/-- The day text `a` denotes a strictly earlier calendar day than `b`: both are read as dates
and the first date comes first. Every day text that `dayOf` produces is read, whatever the
sign and the number of digits of its year (`parseDay_dayOf`). -/
def dayBefore (a b : GoString) : Bool :=
  match parseDay a, parseDay b with
  | some x, some y => dateLt x y
  | _, _ => false

/-! ## Machine arithmetic -/

theorem wrapInt_zero : wrapInt 0 = 0 := by decide

theorem wrapInt_of_range (x : Int) (h1 : -9223372036854775808 ≤ x)
    (h2 : x < 9223372036854775808) : wrapInt x = x := by
  unfold wrapInt; omega

theorem wrapInt_add_left (a b : Int) : wrapInt (wrapInt a + b) = wrapInt (a + b) := by
  unfold wrapInt; omega

theorem wrapInt_congr_add (a s1 s2 : Int) (h : wrapInt s1 = wrapInt s2) :
    wrapInt (wrapInt a + s1) = wrapInt (a + s2) := by
  unfold wrapInt at *; omega

theorem foldl_wrap_filter (p : CarCountEntry → Bool) (es : List CarCountEntry) (t : Int) :
    es.foldl (fun total e => if p e then wrapInt (total + e.Count) else total) (wrapInt t)
      = wrapInt (t + countSum (es.filter p)) := by
  induction es generalizing t with
  | nil => simp [countSum]
  | cons e es ih =>
    by_cases hp : p e = true
    · rw [List.filter_cons_of_pos hp]
      simp only [List.foldl_cons, hp, if_true]
      rw [wrapInt_add_left, ih]
      simp [countSum, add_assoc]
    · rw [List.filter_cons_of_neg hp]
      simpa [hp] using ih t

theorem foldl_wrap_all (es : List CarCountEntry) (t : Int) :
    es.foldl (fun total e => wrapInt (total + e.Count)) (wrapInt t)
      = wrapInt (t + countSum es) := by
  induction es generalizing t with
  | nil => simp [countSum]
  | cons e es ih =>
    simp only [List.foldl_cons]
    rw [wrapInt_add_left, ih]
    simp [countSum, add_assoc]

theorem GetTotalCount_eq (c : CarCountData) : GetTotalCount c = wrapInt (countSum c.Entries) := by
  have h := foldl_wrap_all c.Entries 0
  rw [wrapInt_zero, zero_add] at h
  exact h

/-- C2. `GetTotalCount` returns the sum of the `Count` fields of all entries: the sum in Go
`int` arithmetic for every dataset, which is the mathematical sum whenever that sum is in the
range of `int`; it is 0 for a dataset with no entries. -/
theorem GetTotalCount_is_sum (c : CarCountData) :
    GetTotalCount c = wrapInt (c.Entries.map fun e => e.Count).sum ∧
    (-9223372036854775808 ≤ (c.Entries.map fun e => e.Count).sum ∧
      (c.Entries.map fun e => e.Count).sum < 9223372036854775808 →
      GetTotalCount c = (c.Entries.map fun e => e.Count).sum) ∧
    GetTotalCount ⟨[]⟩ = 0 := by
  refine ⟨GetTotalCount_eq c, fun h => ?_, by decide⟩
  rw [GetTotalCount_eq c]
  exact wrapInt_of_range _ h.1 h.2

theorem GetTotalCount_is_sum_witness :
    GetTotalCount ⟨[⟨5, 1638334800⟩, ⟨12, 1638336600⟩]⟩ = 17 :=
  (GetTotalCount_is_sum ⟨[⟨5, 1638334800⟩, ⟨12, 1638336600⟩]⟩).2.1 (by decide)

/-! ## Unique days -/

theorem GetUniqueDays_eq_foldl (c : CarCountData) :
    GetUniqueDays c = (c.Entries.map fun e => dayOf e.Timestamp).foldl
      (fun (u : List GoString) x => if u.contains x then u else u ++ [x]) [] := by
  unfold GetUniqueDays
  rw [List.foldl_map]

theorem firstIndex_append_of_mem (a : GoString) (l1 l2 : List GoString) (h : a ∈ l1) :
    firstIndex a (l1 ++ l2) = firstIndex a l1 := by
  induction l1 with
  | nil => simp at h
  | cons x l ih =>
    by_cases hx : x = a
    · simp [firstIndex, hx]
    · have : a ∈ l := by
        rcases List.mem_cons.1 h with h | h
        · exact absurd h.symm hx
        · exact h
      simp [firstIndex, hx, ih this]

theorem firstIndex_append_of_not_mem (a : GoString) (l1 l2 : List GoString) (h : a ∉ l1) :
    firstIndex a (l1 ++ l2) = l1.length + firstIndex a l2 := by
  induction l1 with
  | nil => simp
  | cons x l ih =>
    have hx : ¬ x = a := fun e => h (e ▸ List.mem_cons_self _ _)
    have hl : a ∉ l := fun e => h (List.mem_cons_of_mem _ e)
    simp [firstIndex, hx, ih hl]
    omega

theorem firstIndex_lt_length (a : GoString) (l : List GoString) (h : a ∈ l) :
    firstIndex a l < l.length := by
  induction l with
  | nil => simp at h
  | cons x l ih =>
    by_cases hx : x = a
    · simp [firstIndex, hx]
    · have : a ∈ l := by
        rcases List.mem_cons.1 h with h | h
        · exact absurd h.symm hx
        · exact h
      simp [firstIndex, hx, ih this]

theorem collect_invariant (l : List GoString) : ∀ (p u : List GoString),
    u.Nodup → (∀ s, s ∈ u ↔ s ∈ p) →
    (∀ a ∈ u, ∀ b ∈ u, (firstIndex a u < firstIndex b u ↔ firstIndex a p < firstIndex b p)) →
    (l.foldl (fun (u : List GoString) x => if u.contains x then u else u ++ [x]) u).Nodup ∧
    (∀ s, s ∈ l.foldl (fun (u : List GoString) x => if u.contains x then u else u ++ [x]) u
      ↔ s ∈ p ++ l) ∧
    (∀ a ∈ l.foldl (fun (u : List GoString) x => if u.contains x then u else u ++ [x]) u,
      ∀ b ∈ l.foldl (fun (u : List GoString) x => if u.contains x then u else u ++ [x]) u,
      (firstIndex a (l.foldl (fun (u : List GoString) x => if u.contains x then u else u ++ [x]) u)
          < firstIndex b
              (l.foldl (fun (u : List GoString) x => if u.contains x then u else u ++ [x]) u)
        ↔ firstIndex a (p ++ l) < firstIndex b (p ++ l))) := by
  induction l with
  | nil =>
    intro p u hn hm ho
    simpa using ⟨hn, hm, ho⟩
  | cons x l ih =>
    intro p u hn hm ho
    have hpl : p ++ x :: l = (p ++ [x]) ++ l := by simp
    rw [List.foldl_cons, hpl]
    by_cases hx : x ∈ u
    · have hc : u.contains x = true := by simpa using hx
      rw [if_pos hc]
      refine ih (p ++ [x]) u hn ?_ ?_
      · intro s
        constructor
        · intro hs
          exact List.mem_append_left _ ((hm s).1 hs)
        · intro hs
          rcases List.mem_append.1 hs with h | h
          · exact (hm s).2 h
          · have : s = x := by simpa using h
            exact this ▸ hx
      · intro a ha b hb
        rw [firstIndex_append_of_mem a p [x] ((hm a).1 ha),
          firstIndex_append_of_mem b p [x] ((hm b).1 hb)]
        exact ho a ha b hb
    · have hc : ¬ (u.contains x = true) := by simpa using hx
      have hxp : x ∉ p := fun h => hx ((hm x).2 h)
      rw [if_neg hc]
      refine ih (p ++ [x]) (u ++ [x]) ?_ ?_ ?_
      · rw [List.nodup_append]
        refine ⟨hn, List.nodup_singleton x, ?_⟩
        intro a ha hb
        have : a = x := by simpa using hb
        exact hx (this ▸ ha)
      · intro s
        simp [hm s]
      · intro a ha b hb
        have ha1 : a ∈ u ∨ a = x := by simpa using ha
        have hb1 : b ∈ u ∨ b = x := by simpa using hb
        have hu : ∀ z, z ∈ u → firstIndex z (u ++ [x]) = firstIndex z u ∧
            firstIndex z (p ++ [x]) = firstIndex z p ∧ firstIndex z u < u.length ∧
            firstIndex z p < p.length := fun z hz =>
          ⟨firstIndex_append_of_mem z u [x] hz, firstIndex_append_of_mem z p [x] ((hm z).1 hz),
            firstIndex_lt_length z u hz, firstIndex_lt_length z p ((hm z).1 hz)⟩
        have hxu : firstIndex x (u ++ [x]) = u.length ∧ firstIndex x (p ++ [x]) = p.length := by
          rw [firstIndex_append_of_not_mem x u [x] hx, firstIndex_append_of_not_mem x p [x] hxp]
          simp [firstIndex]
        rcases ha1 with ha1 | ha1 <;> rcases hb1 with hb1 | hb1
        · rw [(hu a ha1).1, (hu b hb1).1, (hu a ha1).2.1, (hu b hb1).2.1]
          exact ho a ha1 b hb1
        · subst hb1
          rw [(hu a ha1).1, (hu a ha1).2.1, hxu.1, hxu.2]
          exact ⟨fun _ => (hu a ha1).2.2.2, fun _ => (hu a ha1).2.2.1⟩
        · subst ha1
          rw [(hu b hb1).1, (hu b hb1).2.1, hxu.1, hxu.2]
          have h1 := (hu b hb1).2.2.1
          have h2 := (hu b hb1).2.2.2
          omega
        · subst ha1
          subst hb1
          simp

theorem GetUniqueDays_nodup (c : CarCountData) : (GetUniqueDays c).Nodup := by
  rw [GetUniqueDays_eq_foldl]
  exact (collect_invariant _ [] [] List.nodup_nil (by simp) (by simp)).1

theorem mem_GetUniqueDays (c : CarCountData) (s : GoString) :
    s ∈ GetUniqueDays c ↔ ∃ e ∈ c.Entries, dayOf e.Timestamp = s := by
  rw [GetUniqueDays_eq_foldl]
  have h := (collect_invariant (c.Entries.map fun e => dayOf e.Timestamp) [] []
    List.nodup_nil (by simp) (by simp)).2.1 s
  rw [h]
  simp

/-- C4. `GetUniqueDays` returns the day texts of the entries, each distinct day exactly once,
ordered by first occurrence in the entry order: the result has no duplicates, holds the day of
every entry and nothing else, and a day comes before another in the result exactly when its
first entry comes before the first entry of the other. -/
theorem GetUniqueDays_first_occurrence (c : CarCountData) :
    (GetUniqueDays c).Nodup ∧
    (∀ s, s ∈ GetUniqueDays c ↔ ∃ e ∈ c.Entries, dayOf e.Timestamp = s) ∧
    (∀ a ∈ GetUniqueDays c, ∀ b ∈ GetUniqueDays c,
      (firstIndex a (GetUniqueDays c) < firstIndex b (GetUniqueDays c) ↔
        firstIndex a (c.Entries.map fun e => dayOf e.Timestamp)
          < firstIndex b (c.Entries.map fun e => dayOf e.Timestamp))) := by
  refine ⟨GetUniqueDays_nodup c, mem_GetUniqueDays c, ?_⟩
  rw [GetUniqueDays_eq_foldl]
  have h := (collect_invariant (c.Entries.map fun e => dayOf e.Timestamp) [] []
    List.nodup_nil (by simp) (by simp)).2.2
  simpa using h

/-! ## The shape of a formatted timestamp -/

theorem absDate_year_range (abs : Nat) (h1 : 9223371966548102400 ≤ abs)
    (h2 : abs < 9223372282117622400) :
    0 ≤ (absDate abs).1 ∧ (absDate abs).1 ≤ 9999 := by
  unfold absDate absoluteZeroYear
  simp only
  generalize hD : abs / 86400 = D
  have hD1 : 106751990353566 ≤ D := by omega
  have hD2 : D < 106751994005991 := by omega
  generalize hb : D / 146097 = b
  have hb1 : 730692555 ≤ b := by omega
  have hb2 : b ≤ 730692580 := by omega
  generalize hd1 : D - 146097 * b = d1
  have hd1a : d1 < 146097 := by omega
  have hd1b : b = 730692555 → 145731 ≤ d1 := by omega
  have hd1c : b = 730692580 → d1 < 145731 := by omega
  generalize hn : d1 / 36524 = n
  generalize hn2 : n - n / 4 = n2
  have hn2a : n2 ≤ 3 := by omega
  have hn2b : b = 730692555 → n2 = 3 := by omega
  generalize hd2 : d1 - 36524 * n2 = d2
  have hd2a : d2 ≤ 36524 := by omega
  have hd2b : b = 730692555 → 36159 ≤ d2 := by omega
  have hd2c : b = 730692580 → n2 = 3 → d2 < 36159 := by omega
  have hd2d : n2 < 3 → d2 < 36524 := by omega
  generalize hm : d2 / 1461 = m
  have hma : m ≤ 24 := by omega
  have hmb : b = 730692555 → 24 ≤ m := by omega
  generalize hd3 : d2 - 1461 * m = d3
  have hd3a : d3 ≤ 1460 := by omega
  have hd3b : b = 730692555 → 1095 ≤ d3 := by omega
  have hd3c : b = 730692580 → n2 = 3 → m = 24 → d3 < 1095 := by omega
  generalize hk : d3 / 365 = k
  generalize hk2 : k - k / 4 = k2
  have hk2a : k2 ≤ 3 := by omega
  have hk2b : b = 730692555 → 3 ≤ k2 := by omega
  have hk2c : b = 730692580 → n2 = 3 → m = 24 → k2 ≤ 2 := by omega
  constructor
  · omega
  · omega

theorem absDate_snd (abs : Nat) :
    ∃ d, d ≤ 365 ∧ (absDate abs).2 = monthDay (absDate abs).1 d := by
  unfold absDate
  simp only
  refine ⟨_, ?_, rfl⟩
  omega

theorem monthDay_core_lt (day : Nat) (hd : day ≤ 365) :
    (if day ≥ daysBefore.getD (day / 31 + 1) 0 then
        (day / 31 + 2, day - daysBefore.getD (day / 31 + 1) 0 + 1)
      else (day / 31 + 1, day - daysBefore.getD (day / 31) 0 + 1)).1 < 100 ∧
    (if day ≥ daysBefore.getD (day / 31 + 1) 0 then
        (day / 31 + 2, day - daysBefore.getD (day / 31 + 1) 0 + 1)
      else (day / 31 + 1, day - daysBefore.getD (day / 31) 0 + 1)).2 < 100 := by
  obtain ⟨q, hq⟩ : ∃ q, q = day / 31 := ⟨_, rfl⟩
  have hq1 : q ≤ 11 := by omega
  rw [← hq]
  interval_cases q <;> simp [daysBefore] <;> split <;> simp <;> omega

theorem monthDay_lt (year : Int) (yday : Nat) (h : yday ≤ 365) :
    (monthDay year yday).1 < 100 ∧ (monthDay year yday).2 < 100 := by
  unfold monthDay
  split
  · simp
  · simp only
    apply monthDay_core_lt
    split <;> omega

theorem digit_cases (n : Nat) :
    digit n ∈ ['0', '1', '2', '3', '4', '5', '6', '7', '8', '9'] := by
  unfold digit
  have h := Nat.mod_lt n (by decide : 10 > 0)
  interval_cases n % 10 <;> decide

theorem digit_props (n : Nat) :
    ('-' == digit n) = false ∧ 'T' ≠ digit n ∧ '+' ≠ digit n ∧ (digit n).isDigit = true := by
  have h := digit_cases n
  generalize digit n = c at h
  simp only [List.mem_cons, List.mem_singleton, List.not_mem_nil, or_false] at h
  rcases h with h | h | h | h | h | h | h | h | h | h <;> subst h <;> decide

theorem appendInt_four (y : Int) (h0 : 0 ≤ y) (h1 : y ≤ 9999) :
    appendInt y 4 = [digit (y.natAbs / 1000), digit (y.natAbs / 100), digit (y.natAbs / 10),
      digit y.natAbs] := by
  unfold appendInt
  have h2 : ¬ y < 0 := by omega
  have h3 : y.natAbs < 10000 := by omega
  simp [h2, h3]

theorem appendInt_two (n : Nat) (h : n < 100) :
    appendInt (n : Int) 2 = [digit (n / 10), digit n] := by
  unfold appendInt
  simp [h]

theorem unixAbs_of_fourDigitYear (ts : Int) (h : fourDigitYear ts) :
    9223371966548102400 ≤ unixAbs ts ∧ unixAbs ts < 9223372282117622400 := by
  unfold fourDigitYear at h
  unfold unixAbs unixToAbsolute
  omega

theorem formatRFC3339_shape (ts : Int) (h : fourDigitYear ts) :
    ∃ y m d hh mm ss : Nat, formatRFC3339 (unixAbs ts) =
      [digit (y / 1000), digit (y / 100), digit (y / 10), digit y, '-', digit (m / 10), digit m,
        '-', digit (d / 10), digit d, 'T', digit (hh / 10), digit hh, ':', digit (mm / 10),
        digit mm, ':', digit (ss / 10), digit ss, 'Z'] := by
  obtain ⟨ha1, ha2⟩ := unixAbs_of_fourDigitYear ts h
  obtain ⟨hy1, hy2⟩ := absDate_year_range (unixAbs ts) ha1 ha2
  obtain ⟨d, hd, hmd⟩ := absDate_snd (unixAbs ts)
  obtain ⟨hm1, hm2⟩ := monthDay_lt (absDate (unixAbs ts)).1 d hd
  rw [← hmd] at hm1 hm2
  unfold formatRFC3339
  simp only
  rw [appendInt_four _ hy1 hy2, appendInt_two _ hm1, appendInt_two _ hm2,
    appendInt_two _ (by omega), appendInt_two _ (by omega), appendInt_two _ (by omega)]
  exact ⟨_, _, _, _, _, _, rfl⟩

/-! ## Splitting -/

theorem Split_ne_nil (s : GoString) (sep : Char) : Split s sep ≠ [] := by
  cases s with
  | nil => simp [Split]
  | cons c cs =>
    unfold Split
    split
    · simp
    · split <;> simp

theorem Split_of_not_mem (s : GoString) (sep : Char) (h : sep ∉ s) : Split s sep = [s] := by
  induction s with
  | nil => rfl
  | cons c cs ih =>
    have hc : ¬ c = sep := fun e => h (e ▸ List.mem_cons_self _ _)
    have hcs : sep ∉ cs := fun e => h (List.mem_cons_of_mem _ e)
    simp [Split, hc, ih hcs]

theorem Split_append_sep (s1 s2 : GoString) (sep : Char) (h : sep ∉ s1) :
    Split (s1 ++ sep :: s2) sep = s1 :: Split s2 sep := by
  induction s1 with
  | nil => simp [Split]
  | cons c cs ih =>
    have hc : ¬ c = sep := fun e => h (e ▸ List.mem_cons_self _ _)
    have hcs : sep ∉ cs := fun e => h (List.mem_cons_of_mem _ e)
    simp [Split, hc, ih hcs]

/-! ## Matching a day against a formatted timestamp -/

theorem isDayString_dashes (day : GoString) (h : isDayString day = true) :
    ∃ a0 a1 a2 a3 a5 a6 a8 a9 : Char, day = [a0, a1, a2, a3, '-', a5, a6, '-', a8, a9] := by
  unfold isDayString at h
  split at h
  · rename_i y1 y2 y3 y4 p m1 m2 q d1 d2
    simp only [Bool.and_eq_true, beq_iff_eq] at h
    obtain ⟨⟨⟨⟨⟨⟨_, hp⟩, _⟩, _⟩, hq⟩, _⟩, _⟩ := h
    subst hp; subst hq
    exact ⟨_, _, _, _, _, _, _, _, rfl⟩
  · simp at h

theorem contains_day (y1 y2 y3 y4 m1 m2 d1 d2 h1 h2 n1 n2 s1 s2 : Char)
    (e5 : ('-' == m1) = false) (e6 : ('-' == m2) = false)
    (e7 : ('-' == d1) = false) (e8 : ('-' == d2) = false) (e9 : ('-' == h1) = false)
    (e10 : ('-' == h2) = false) (e11 : ('-' == n1) = false) (e12 : ('-' == n2) = false)
    (e13 : ('-' == s1) = false) (e14 : ('-' == s2) = false)
    (day : GoString) (hday : isDayString day = true) :
    Contains [y1, y2, y3, y4, '-', m1, m2, '-', d1, d2, 'T', h1, h2, ':', n1, n2, ':', s1, s2, 'Z']
      day = decide (day = [y1, y2, y3, y4, '-', m1, m2, '-', d1, d2]) := by
  obtain ⟨a0, a1, a2, a3, a5, a6, a8, a9, rfl⟩ := isDayString_dashes day hday
  simp [Contains, List.isPrefixOf, e5, e6, e7, e8, e9, e10, e11, e12, e13, e14]
  rfl

theorem stamp_of_fourDigitYear (ts : Int) (h : fourDigitYear ts) :
    isDayString (dayOf ts) = true ∧
    ∀ day, isDayString day = true →
      Contains (at0 (Timestamp2String ts)) day = decide (day = dayOf ts) := by
  obtain ⟨y, m, d, hh, mm, ss, hf⟩ := formatRFC3339_shape ts h
  have hplus : at0 (Timestamp2String ts) = formatRFC3339 (unixAbs ts) := by
    unfold Timestamp2String
    rw [Split_of_not_mem]
    · rfl
    · rw [hf]
      simp [(digit_props _).2.2.1]
  have hday : dayOf ts = [digit (y / 1000), digit (y / 100), digit (y / 10), digit y, '-',
      digit (m / 10), digit m, '-', digit (d / 10), digit d] := by
    unfold dayOf
    rw [hplus, hf]
    have := Split_append_sep [digit (y / 1000), digit (y / 100), digit (y / 10), digit y, '-',
      digit (m / 10), digit m, '-', digit (d / 10), digit d]
      [digit (hh / 10), digit hh, ':', digit (mm / 10), digit mm, ':', digit (ss / 10),
        digit ss, 'Z'] 'T' (by simp [(digit_props _).2.1])
    simp only [List.cons_append, List.nil_append] at this
    rw [this]
    rfl
  refine ⟨?_, ?_⟩
  · rw [hday]
    simp [isDayString, (digit_props _).2.2.2]
  · intro day hd
    rw [hplus, hf, hday]
    exact contains_day _ _ _ _ _ _ _ _ _ _ _ _ _ _ (digit_props _).1 (digit_props _).1
      (digit_props _).1
      (digit_props _).1 (digit_props _).1 (digit_props _).1 (digit_props _).1 (digit_props _).1
      (digit_props _).1 (digit_props _).1 day hd

theorem dailyTotal_eq (es : List CarCountEntry) (hes : ∀ e ∈ es, fourDigitYear e.Timestamp)
    (day : GoString) (hday : isDayString day = true) :
    es.foldl (fun total e =>
        if Contains (at0 (Timestamp2String e.Timestamp)) day then wrapInt (total + e.Count)
        else total) 0
      = wrapInt (countSum (entriesOn day es)) := by
  have h := foldl_wrap_filter (fun e => Contains (at0 (Timestamp2String e.Timestamp)) day) es 0
  rw [wrapInt_zero, zero_add] at h
  have hfil : es.filter (fun e => Contains (at0 (Timestamp2String e.Timestamp)) day)
      = entriesOn day es := by
    unfold entriesOn
    apply List.filter_congr
    intro e he
    rw [(stamp_of_fourDigitYear e.Timestamp (hes e he)).2 day hday]
    simp [eq_comm]
  rw [h, hfil]

theorem GetDailyTotals_eq (c : CarCountData) (days : List GoString)
    (hc : ∀ e ∈ c.Entries, fourDigitYear e.Timestamp)
    (hd : ∀ day ∈ days, isDayString day = true) :
    GetDailyTotals c days
      = days.map fun day => ⟨day, wrapInt (countSum (entriesOn day c.Entries))⟩ := by
  unfold GetDailyTotals
  apply List.map_congr_left
  intro day hday
  rw [dailyTotal_eq c.Entries hc day (hd day hday)]

/-! ## Per-day totals partition the total -/

theorem wrapInt_sum_map (g : GoString → Int) (l : List GoString) :
    wrapInt (l.map fun x => wrapInt (g x)).sum = wrapInt (l.map g).sum := by
  induction l with
  | nil => rfl
  | cons x l ih =>
    simp only [List.map_cons, List.sum_cons]
    exact wrapInt_congr_add (g x) _ _ ih

theorem sum_ite_of_nodup (days : List GoString) (hn : days.Nodup) (k : GoString) (v : Int)
    (hk : k ∈ days) : (days.map fun day => if k = day then v else 0).sum = v := by
  induction days with
  | nil => simp at hk
  | cons d ds ih =>
    have hd : d ∉ ds := (List.nodup_cons.1 hn).1
    by_cases hkd : k = d
    · subst hkd
      have hz : ∀ day ∈ ds, (if k = day then v else 0) = (0 : Int) := by
        intro day hday
        have : ¬ k = day := fun e => hd (e ▸ hday)
        simp [this]
      simp [List.map_congr_left hz]
    · have hkds : k ∈ ds := by
        rcases List.mem_cons.1 hk with h | h
        · exact absurd h hkd
        · exact h
      simp [hkd, ih (List.nodup_cons.1 hn).2 hkds]

theorem sum_entriesOn (days : List GoString) (hn : days.Nodup) (es : List CarCountEntry)
    (hall : ∀ e ∈ es, dayOf e.Timestamp ∈ days) :
    (days.map fun day => countSum (entriesOn day es)).sum = countSum es := by
  induction es with
  | nil => simp [entriesOn, countSum]
  | cons e es ih =>
    have hstep : ∀ day, countSum (entriesOn day (e :: es))
        = (if dayOf e.Timestamp = day then e.Count else 0) + countSum (entriesOn day es) := by
      intro day
      unfold entriesOn
      by_cases h : dayOf e.Timestamp = day
      · simp [h, countSum]
      · simp [h, countSum]
    simp only [hstep, List.sum_map_add]
    rw [sum_ite_of_nodup days hn _ _ (hall e (List.mem_cons_self _ _)),
      ih fun x hx => hall x (List.mem_cons_of_mem _ hx)]
    simp [countSum]

theorem countSum_filter_bounds (p : CarCountEntry → Bool) (es : List CarCountEntry)
    (h : ∀ e ∈ es, 0 ≤ e.Count) :
    0 ≤ countSum (es.filter p) ∧ countSum (es.filter p) ≤ countSum es := by
  induction es with
  | nil => simp [countSum]
  | cons e es ih =>
    have h1 := h e (List.mem_cons_self _ _)
    have h2 := ih fun x hx => h x (List.mem_cons_of_mem _ hx)
    by_cases hp : p e = true
    · rw [List.filter_cons_of_pos hp]
      simp only [countSum, List.map_cons, List.sum_cons] at *
      omega
    · rw [List.filter_cons_of_neg hp]
      simp only [countSum, List.map_cons, List.sum_cons] at *
      omega

theorem isDayString_of_mem_GetUniqueDays (c : CarCountData)
    (hc : ∀ e ∈ c.Entries, fourDigitYear e.Timestamp) :
    ∀ day ∈ GetUniqueDays c, isDayString day = true := by
  intro day hday
  obtain ⟨e, he, rfl⟩ := (mem_GetUniqueDays c day).1 hday
  exact (stamp_of_fourDigitYear e.Timestamp (hc e he)).1

/-- C1 (as amended). For every dataset whose timestamps lie in the years 0000 to 9999, the sum
of the `Count` fields of `GetDailyTotals(GetUniqueDays())` equals `GetTotalCount()`: in Go
`int` arithmetic always, and as mathematical integers when the counts are non-negative and
their sum is in the range of `int`. -/
theorem daily_totals_partition_total (c : CarCountData)
    (hc : ∀ e ∈ c.Entries, fourDigitYear e.Timestamp) :
    wrapInt ((GetDailyTotals c (GetUniqueDays c)).map fun t => t.Count).sum = GetTotalCount c ∧
    ((∀ e ∈ c.Entries, 0 ≤ e.Count) → countSum c.Entries < 9223372036854775808 →
      ((GetDailyTotals c (GetUniqueDays c)).map fun t => t.Count).sum = GetTotalCount c) := by
  have hd := isDayString_of_mem_GetUniqueDays c hc
  have hall : ∀ e ∈ c.Entries, dayOf e.Timestamp ∈ GetUniqueDays c := fun e he =>
    (mem_GetUniqueDays c _).2 ⟨e, he, rfl⟩
  have hpart := sum_entriesOn (GetUniqueDays c) (GetUniqueDays_nodup c) c.Entries hall
  rw [GetDailyTotals_eq c _ hc hd, GetTotalCount_eq, List.map_map]
  constructor
  · have h := wrapInt_sum_map (fun day => countSum (entriesOn day c.Entries)) (GetUniqueDays c)
    rw [hpart] at h
    exact h
  · intro hpos hlt
    have hexact : ∀ day ∈ GetUniqueDays c,
        ((fun (t : DailyTotal) => t.Count) ∘ fun day =>
          (⟨day, wrapInt (countSum (entriesOn day c.Entries))⟩ : DailyTotal)) day
          = countSum (entriesOn day c.Entries) := by
      intro day _
      have hb := countSum_filter_bounds (fun e => decide (dayOf e.Timestamp = day)) c.Entries hpos
      exact wrapInt_of_range _ (by unfold entriesOn; omega) (by unfold entriesOn; omega)
    have h0 := (countSum_filter_bounds (fun _ => true) c.Entries hpos).1
    rw [List.filter_true] at h0
    rw [List.map_congr_left hexact, hpart, wrapInt_of_range _ (by omega) hlt]

theorem daily_totals_partition_total_witness :
    wrapInt ((GetDailyTotals ⟨[⟨5, 1638334800⟩, ⟨18, 1638696600⟩, ⟨12, 1638336600⟩]⟩
      (GetUniqueDays ⟨[⟨5, 1638334800⟩, ⟨18, 1638696600⟩, ⟨12, 1638336600⟩]⟩)).map
        fun t => t.Count).sum
      = GetTotalCount ⟨[⟨5, 1638334800⟩, ⟨18, 1638696600⟩, ⟨12, 1638336600⟩]⟩ :=
  (daily_totals_partition_total ⟨[⟨5, 1638334800⟩, ⟨18, 1638696600⟩, ⟨12, 1638336600⟩]⟩
    (by unfold fourDigitYear; decide)).1

/-- C1 (counterexample). A dataset with one entry in year 10000 and one in year 0000: the text
"0000-01-01" occurs inside "10000-01-01T00:00:00Z", so the first entry is counted on both
days; the daily totals are 1 and 2 and sum to 3, while the total count is 2. -/
theorem daily_totals_exceed_total :
    GetUniqueDays ⟨[⟨1, 253402300800⟩, ⟨1, -62167219200⟩]⟩
      = ["10000-01-01".toList, "0000-01-01".toList] ∧
    ((GetDailyTotals ⟨[⟨1, 253402300800⟩, ⟨1, -62167219200⟩]⟩
      (GetUniqueDays ⟨[⟨1, 253402300800⟩, ⟨1, -62167219200⟩]⟩)).map fun t => t.Count) = [1, 2] ∧
    GetTotalCount ⟨[⟨1, 253402300800⟩, ⟨1, -62167219200⟩]⟩ = 2 := by
  decide

/-- C3 (as amended). For every dataset whose timestamps lie in the years 0000 to 9999 and
every list of `YYYY-MM-DD` day texts, `GetDailyTotals` returns one `DailyTotal` per input day,
in the given order, whose `Day` is that day and whose `Count` is the sum (in Go `int`
arithmetic) of the counts of exactly the entries whose day text equals it; a day on which no
entry falls gets 0. -/
theorem GetDailyTotals_per_day (c : CarCountData) (days : List GoString)
    (hc : ∀ e ∈ c.Entries, fourDigitYear e.Timestamp)
    (hd : ∀ day ∈ days, isDayString day = true) :
    GetDailyTotals c days
      = (days.map fun day => ⟨day, wrapInt (countSum (entriesOn day c.Entries))⟩) ∧
    (∀ day ∈ days, (∀ e ∈ c.Entries, dayOf e.Timestamp ≠ day) →
      (⟨day, 0⟩ : DailyTotal) ∈ GetDailyTotals c days) := by
  refine ⟨GetDailyTotals_eq c days hc hd, ?_⟩
  intro day hday hno
  rw [GetDailyTotals_eq c days hc hd]
  refine List.mem_map.2 ⟨day, hday, ?_⟩
  have : entriesOn day c.Entries = [] := by
    unfold entriesOn
    rw [List.filter_eq_nil_iff]
    intro e he
    simpa using hno e he
  rw [this]
  rfl

theorem GetDailyTotals_per_day_witness :
    GetDailyTotals ⟨[⟨5, 1638334800⟩, ⟨18, 1638696600⟩, ⟨12, 1638336600⟩]⟩
        ["2021-12-05".toList, "2021-12-02".toList, "2021-12-01".toList]
      = [⟨"2021-12-05".toList, 18⟩, ⟨"2021-12-02".toList, 0⟩, ⟨"2021-12-01".toList, 17⟩] :=
  (GetDailyTotals_per_day ⟨[⟨5, 1638334800⟩, ⟨18, 1638696600⟩, ⟨12, 1638336600⟩]⟩
    ["2021-12-05".toList, "2021-12-02".toList, "2021-12-01".toList]
    (by unfold fourDigitYear; decide) (by decide)).1.trans (by decide)

/-- C3 (counterexample). The only entry falls on the day "10000-01-01"; asked for the day
"0000-01-01", on which no entry falls, `GetDailyTotals` reports 1 and not 0, because the
text "0000-01-01" occurs inside "10000-01-01T00:00:00Z". -/
theorem GetDailyTotals_counts_other_day :
    isDayString "0000-01-01".toList = true ∧
    dayOf 253402300800 = "10000-01-01".toList ∧
    GetDailyTotals ⟨[⟨1, 253402300800⟩]⟩ ["0000-01-01".toList]
      = [⟨"0000-01-01".toList, 1⟩] := by
  decide

/-! ## The sort loops -/

theorem swapAt_succ (key : CarCountEntry → Int) (j : Nat) (x : CarCountEntry)
    (l : List CarCountEntry) : swapAt key (j + 1) (x :: l) = x :: swapAt key j l := by
  cases l <;> simp [swapAt]

theorem swapAt_append (key : CarCountEntry → Int) (pre : List CarCountEntry)
    (a b : CarCountEntry) (r : List CarCountEntry) :
    swapAt key pre.length (pre ++ a :: b :: r)
      = pre ++ (if key a > key b then b :: a :: r else a :: b :: r) := by
  induction pre with
  | nil => simp [swapAt]
  | cons x pre ih =>
    simp only [List.length_cons, List.cons_append]
    rw [swapAt_succ, ih]

theorem innerLoop_append (key : CarCountEntry → Int) (r : List CarCountEntry) :
    ∀ (pre : List CarCountEntry) (a : CarCountEntry),
      innerLoop key r.length pre.length (pre ++ a :: r) = pre ++ carry key a r := by
  induction r with
  | nil => intro pre a; simp [innerLoop, carry]
  | cons b r ih =>
    intro pre a
    simp only [List.length_cons, innerLoop]
    rw [swapAt_append]
    by_cases h : key a > key b
    · have := ih (pre ++ [b]) a
      simp only [List.length_append, List.length_singleton, List.append_assoc,
        List.singleton_append] at this
      simp [h, carry, this]
    · have := ih (pre ++ [a]) b
      simp only [List.length_append, List.length_singleton, List.append_assoc,
        List.singleton_append] at this
      simp [h, carry, this]

theorem innerLoop_eq_bubble (key : CarCountEntry → Int) (es : List CarCountEntry) :
    innerLoop key (es.length - 1) 0 es = bubble key es := by
  cases es with
  | nil => simp [innerLoop, bubble]
  | cons a l =>
    have := innerLoop_append key l [] a
    simpa [bubble] using this

theorem outerLoop_eq_iterate (key : CarCountEntry → Int) (k : Nat) (es : List CarCountEntry) :
    outerLoop key k es = (bubble key)^[k] es := by
  induction k generalizing es with
  | zero => rfl
  | succ k ih => simp [outerLoop, innerLoop_eq_bubble, ih]

/-! ## One pass: permutation, stability, largest entry last -/

theorem carry_perm (key : CarCountEntry → Int) (l : List CarCountEntry) :
    ∀ a, (carry key a l).Perm (a :: l) := by
  induction l with
  | nil => intro a; simp [carry]
  | cons b r ih =>
    intro a
    unfold carry
    split
    · exact ((ih a).cons b).trans (List.Perm.swap a b r)
    · exact (ih b).cons a

theorem bubble_perm (key : CarCountEntry → Int) (es : List CarCountEntry) :
    (bubble key es).Perm es := by
  cases es with
  | nil => simp [bubble]
  | cons a l => exact carry_perm key l a

theorem carry_filter (key : CarCountEntry → Int) (v : Int) (l : List CarCountEntry) :
    ∀ a, (carry key a l).filter (fun e => decide (key e = v))
      = (a :: l).filter (fun e => decide (key e = v)) := by
  induction l with
  | nil => intro a; simp [carry]
  | cons b r ih =>
    intro a
    unfold carry
    split
    · rename_i h
      rw [List.filter_cons, ih a]
      by_cases ha : key a = v
      · have hb : ¬ key b = v := by omega
        simp [List.filter_cons, ha, hb]
      · simp [List.filter_cons, ha]
    · simp [List.filter_cons, ih b]

theorem bubble_filter (key : CarCountEntry → Int) (v : Int) (es : List CarCountEntry) :
    (bubble key es).filter (fun e => decide (key e = v))
      = es.filter (fun e => decide (key e = v)) := by
  cases es with
  | nil => simp [bubble]
  | cons a l => exact carry_filter key v l a

theorem carry_of_le_sorted (key : CarCountEntry → Int) (suf : List CarCountEntry) :
    ∀ a, (∀ y ∈ suf, key a ≤ key y) → suf.Pairwise (fun x y => key x ≤ key y) →
      carry key a suf = a :: suf := by
  induction suf with
  | nil => intro a _ _; rfl
  | cons b r ih =>
    intro a ha hs
    have hab : ¬ key a > key b := by
      have := ha b (List.mem_cons_self _ _)
      omega
    rw [List.pairwise_cons] at hs
    simp [carry, hab, ih b hs.1 hs.2]

theorem carry_append_sorted (key : CarCountEntry → Int) (suf : List CarCountEntry)
    (hs : suf.Pairwise (fun x y => key x ≤ key y)) (l : List CarCountEntry) :
    ∀ a, (∀ x ∈ a :: l, ∀ y ∈ suf, key x ≤ key y) →
      carry key a (l ++ suf) = carry key a l ++ suf := by
  induction l with
  | nil =>
    intro a h
    simpa [carry] using carry_of_le_sorted key suf a (h a (List.mem_cons_self _ _)) hs
  | cons b r ih =>
    intro a h
    simp only [List.cons_append, carry]
    split
    · simp only [List.append_eq]
      rw [ih a]
      · rfl
      · intro x hx
        apply h
        rcases List.mem_cons.1 hx with hx | hx
        · simp [hx]
        · simp [hx]
    · simp only [List.append_eq]
      rw [ih b]
      · rfl
      · intro x hx
        exact h x (List.mem_cons_of_mem _ hx)

theorem carry_last_max (key : CarCountEntry → Int) (l : List CarCountEntry) :
    ∀ a, ∃ pre m, carry key a l = pre ++ [m] ∧ ∀ x ∈ pre, key x ≤ key m := by
  induction l with
  | nil => intro a; exact ⟨[], a, rfl, by simp⟩
  | cons b r ih =>
    intro a
    unfold carry
    split
    · rename_i h
      obtain ⟨pre, m, hc, hm⟩ := ih a
      refine ⟨b :: pre, m, by simp [hc], ?_⟩
      intro x hx
      rcases List.mem_cons.1 hx with hx | hx
      · subst hx
        have hmem : a ∈ pre ++ [m] := hc ▸ (carry_perm key r a).mem_iff.2 (List.mem_cons_self _ _)
        rcases List.mem_append.1 hmem with h1 | h1
        · have := hm a h1
          omega
        · have : a = m := by simpa using h1
          subst this
          omega
      · exact hm x hx
    · rename_i h
      obtain ⟨pre, m, hc, hm⟩ := ih b
      refine ⟨a :: pre, m, by simp [hc], ?_⟩
      intro x hx
      rcases List.mem_cons.1 hx with hx | hx
      · subst hx
        have hmem : b ∈ pre ++ [m] := hc ▸ (carry_perm key r b).mem_iff.2 (List.mem_cons_self _ _)
        rcases List.mem_append.1 hmem with h1 | h1
        · have := hm b h1
          omega
        · have : b = m := by simpa using h1
          subst this
          omega
      · exact hm x hx

/-! ## All passes: the loops sort, stably -/

theorem bubble_of_sorted (key : CarCountEntry → Int) (es : List CarCountEntry)
    (hs : es.Pairwise (fun x y => key x ≤ key y)) : bubble key es = es := by
  cases es with
  | nil => rfl
  | cons a l =>
    rw [List.pairwise_cons] at hs
    exact carry_of_le_sorted key l a hs.1 hs.2

theorem iterate_bubble_perm (key : CarCountEntry → Int) (k : Nat) (es : List CarCountEntry) :
    ((bubble key)^[k] es).Perm es := by
  induction k with
  | zero => exact List.Perm.refl _
  | succ k ih =>
    rw [Function.iterate_succ_apply']
    exact (bubble_perm key _).trans ih

theorem iterate_bubble_filter (key : CarCountEntry → Int) (v : Int) (k : Nat)
    (es : List CarCountEntry) :
    ((bubble key)^[k] es).filter (fun e => decide (key e = v))
      = es.filter (fun e => decide (key e = v)) := by
  induction k with
  | zero => rfl
  | succ k ih =>
    rw [Function.iterate_succ_apply', bubble_filter, ih]

theorem bubble_invariant (key : CarCountEntry → Int) (k : Nat) (es : List CarCountEntry) :
    ∃ pre suf, (bubble key)^[k] es = pre ++ suf ∧ (suf.length = k ∨ pre = []) ∧
      suf.Pairwise (fun x y => key x ≤ key y) ∧ ∀ x ∈ pre, ∀ y ∈ suf, key x ≤ key y := by
  induction k with
  | zero => exact ⟨es, [], by simp, Or.inl rfl, List.Pairwise.nil, by simp⟩
  | succ k ih =>
    obtain ⟨pre, suf, he, hlen, hs, hle⟩ := ih
    rw [Function.iterate_succ_apply', he]
    cases pre with
    | nil =>
      refine ⟨[], suf, ?_, Or.inr rfl, hs, by simp⟩
      simpa using bubble_of_sorted key suf hs
    | cons a l =>
      have hk : suf.length = k := by
        rcases hlen with h | h
        · exact h
        · simp at h
      obtain ⟨p, m, hc, hm⟩ := carry_last_max key l a
      have hmem : ∀ x, x ∈ p ++ [m] → x ∈ a :: l := fun x hx =>
        (carry_perm key l a).mem_iff.1 (hc ▸ hx)
      refine ⟨p, m :: suf, ?_, Or.inl (by simp [hk]), ?_, ?_⟩
      · have h1 : bubble key (a :: l ++ suf) = carry key a (l ++ suf) := rfl
        rw [h1, carry_append_sorted key suf hs l a hle, hc]
        simp
      · rw [List.pairwise_cons]
        exact ⟨fun y hy => hle m (hmem m (by simp)) y hy, hs⟩
      · intro x hx y hy
        rcases List.mem_cons.1 hy with hy | hy
        · subst hy
          exact hm x hx
        · exact hle x (hmem x (by simp [hx])) y hy

theorem outerLoop_sorted (key : CarCountEntry → Int) (es : List CarCountEntry) :
    (outerLoop key es.length es).Pairwise (fun x y => key x ≤ key y) := by
  rw [outerLoop_eq_iterate]
  obtain ⟨pre, suf, he, hlen, hs, _⟩ := bubble_invariant key es.length es
  have hl : (pre ++ suf).length = es.length := by
    rw [← he]
    exact (iterate_bubble_perm key es.length es).length_eq
  have hpre : pre = [] := by
    rcases hlen with h | h
    · rw [List.length_append, h] at hl
      exact List.eq_nil_of_length_eq_zero (by omega)
    · exact h
  rw [he, hpre]
  simpa using hs

theorem outerLoop_perm (key : CarCountEntry → Int) (k : Nat) (es : List CarCountEntry) :
    (outerLoop key k es).Perm es := by
  rw [outerLoop_eq_iterate]
  exact iterate_bubble_perm key k es

theorem outerLoop_filter (key : CarCountEntry → Int) (v : Int) (k : Nat)
    (es : List CarCountEntry) :
    (outerLoop key k es).filter (fun e => decide (key e = v))
      = es.filter (fun e => decide (key e = v)) := by
  rw [outerLoop_eq_iterate]
  exact iterate_bubble_filter key v k es

/-! ## The stable sort is unique -/

theorem orderedInsert_filter (key : CarCountEntry → Int) (v : Int) (a : CarCountEntry)
    (l : List CarCountEntry) :
    (l.orderedInsert (fun a b => key a ≤ key b) a).filter (fun e => decide (key e = v))
      = (a :: l).filter (fun e => decide (key e = v)) := by
  induction l with
  | nil => simp
  | cons b r ih =>
    rw [List.orderedInsert]
    split
    · rfl
    · rename_i h
      rw [List.filter_cons, ih]
      by_cases ha : key a = v
      · have hb : ¬ key b = v := by omega
        simp [List.filter_cons, ha, hb]
      · simp [List.filter_cons, ha]

theorem stableSortBy_filter (key : CarCountEntry → Int) (v : Int) (es : List CarCountEntry) :
    (stableSortBy key es).filter (fun e => decide (key e = v))
      = es.filter (fun e => decide (key e = v)) := by
  unfold stableSortBy
  induction es with
  | nil => rfl
  | cons a l ih =>
    rw [List.insertionSort, orderedInsert_filter, List.filter_cons, ih, List.filter_cons]

theorem orderedInsert_sorted (key : CarCountEntry → Int) (a : CarCountEntry)
    (l : List CarCountEntry) (hs : l.Pairwise (fun x y => key x ≤ key y)) :
    (l.orderedInsert (fun a b => key a ≤ key b) a).Pairwise (fun x y => key x ≤ key y) := by
  induction l with
  | nil => simp
  | cons b r ih =>
    rw [List.pairwise_cons] at hs
    rw [List.orderedInsert]
    split
    · rename_i h
      rw [List.pairwise_cons]
      refine ⟨?_, List.pairwise_cons.2 hs⟩
      intro y hy
      rcases List.mem_cons.1 hy with hy | hy
      · subst hy; exact h
      · exact le_trans h (hs.1 y hy)
    · rename_i h
      rw [List.pairwise_cons]
      refine ⟨?_, ih hs.2⟩
      intro y hy
      have hy2 : y ∈ a :: r := (List.perm_orderedInsert _ a r).mem_iff.1 hy
      rcases List.mem_cons.1 hy2 with hy2 | hy2
      · subst hy2; omega
      · exact hs.1 y hy2

theorem stableSortBy_sorted (key : CarCountEntry → Int) (es : List CarCountEntry) :
    (stableSortBy key es).Pairwise (fun x y => key x ≤ key y) := by
  unfold stableSortBy
  induction es with
  | nil => simp
  | cons a l ih =>
    rw [List.insertionSort]
    exact orderedInsert_sorted key a _ ih

theorem eq_of_sorted_of_filter_eq (key : CarCountEntry → Int) (l1 : List CarCountEntry) :
    ∀ l2 : List CarCountEntry,
      l1.Pairwise (fun x y => key x ≤ key y) → l2.Pairwise (fun x y => key x ≤ key y) →
      (∀ v, l1.filter (fun e => decide (key e = v)) = l2.filter (fun e => decide (key e = v))) →
      l1 = l2 := by
  induction l1 with
  | nil =>
    intro l2 _ _ hf
    cases l2 with
    | nil => rfl
    | cons b t2 =>
      have := hf (key b)
      simp at this
  | cons a t1 ih =>
    intro l2 h1 h2 hf
    cases l2 with
    | nil =>
      have := hf (key a)
      simp at this
    | cons b t2 =>
      rw [List.pairwise_cons] at h1 h2
      have hab : key b ≤ key a := by
        have hmem : a ∈ (b :: t2).filter (fun e => decide (key e = key a)) := by
          rw [← hf (key a)]
          simp
        have hmem2 : a ∈ b :: t2 := (List.mem_filter.1 hmem).1
        rcases List.mem_cons.1 hmem2 with h | h
        · rw [h]
        · exact h2.1 a h
      have hba : key a ≤ key b := by
        have hmem : b ∈ (a :: t1).filter (fun e => decide (key e = key b)) := by
          rw [hf (key b)]
          simp
        have hmem2 : b ∈ a :: t1 := (List.mem_filter.1 hmem).1
        rcases List.mem_cons.1 hmem2 with h | h
        · rw [h]
        · exact h1.1 b h
      have hkey : key b = key a := le_antisymm hab hba
      have hhead := hf (key a)
      simp only [List.filter_cons, hkey, decide_True, if_true] at hhead
      have hab2 : a = b := (List.cons.inj hhead).1
      subst hab2
      congr 1
      apply ih t2 h1.2 h2.2
      intro v
      have hv := hf v
      simp only [List.filter_cons] at hv
      split at hv
      · exact (List.cons.inj hv).2
      · exact hv

theorem outerLoop_eq_stableSortBy (key : CarCountEntry → Int) (es : List CarCountEntry) :
    outerLoop key es.length es = stableSortBy key es := by
  apply eq_of_sorted_of_filter_eq key _ _ (outerLoop_sorted key es) (stableSortBy_sorted key es)
  intro v
  rw [outerLoop_filter, stableSortBy_filter]

/-! ## `SortByCount` and `GetTopThreeEntriesByCount` -/

/-- C7. `SortByCount` leaves the entries equal to the stable ascending sort by `Count` of the
entries before the call: the result is a permutation of the previous entries, is in
non-decreasing `Count` order, and for every count the entries with that count are the same
sequence as before (entries with equal `Count` keep their relative order). -/
theorem SortByCount_stable_sort (d : CarCountData) :
    (SortByCount d).Entries = stableSortBy (fun e => e.Count) d.Entries ∧
    (SortByCount d).Entries.Perm d.Entries ∧
    (SortByCount d).Entries.Pairwise (fun x y => x.Count ≤ y.Count) ∧
    ∀ v : Int, (SortByCount d).Entries.filter (fun e => decide (e.Count = v))
      = d.Entries.filter (fun e => decide (e.Count = v)) :=
  ⟨outerLoop_eq_stableSortBy _ d.Entries, outerLoop_perm _ _ d.Entries,
    outerLoop_sorted (fun e => e.Count) d.Entries,
    fun v => outerLoop_filter (fun e => e.Count) v _ d.Entries⟩

theorem exists_last_three (l : List CarCountEntry) (h : 3 ≤ l.length) :
    ∃ init x y z, l = init ++ [x, y, z] := by
  have hr : l = l.reverse.reverse := (List.reverse_reverse l).symm
  have hlen : l.reverse.length = l.length := List.length_reverse l
  match hm : l.reverse with
  | [] => rw [hm] at hlen; simp at hlen; omega
  | [_] => rw [hm] at hlen; simp at hlen; omega
  | [_, _] => rw [hm] at hlen; simp at hlen; omega
  | z :: y :: x :: ri =>
    refine ⟨ri.reverse, x, y, z, ?_⟩
    rw [hr, hm]
    simp

theorem getElem?_append_add (init l : List CarCountEntry) (k : Nat) :
    (init ++ l)[init.length + k]? = l[k]? := by
  rw [List.getElem?_append_right (by omega)]
  simp

theorem topThreeLoop_last_three (init : List CarCountEntry) (x y z : CarCountEntry) :
    topThreeLoop (init ++ [x, y, z]) 3 0 [] = .ok [z, y, x] := by
  have h0 : entryAt (init ++ [x, y, z]) (((init ++ [x, y, z]).length : Int) - 1 - ((0 : Nat) : Int))
      = .ok z := by
    have : (((init ++ [x, y, z]).length : Int) - 1 - ((0 : Nat) : Int)).toNat = init.length + 2 := by
      simp only [List.length_append, List.length_cons, List.length_nil]
      omega
    have hn : ¬ (((init ++ [x, y, z]).length : Int) - 1 - ((0 : Nat) : Int)) < 0 := by
      simp only [List.length_append, List.length_cons, List.length_nil]
      omega
    unfold entryAt
    rw [if_neg hn, this, getElem?_append_add]
    rfl
  have h1 : entryAt (init ++ [x, y, z]) (((init ++ [x, y, z]).length : Int) - 1 - ((1 : Nat) : Int))
      = .ok y := by
    have : (((init ++ [x, y, z]).length : Int) - 1 - ((1 : Nat) : Int)).toNat = init.length + 1 := by
      simp only [List.length_append, List.length_cons, List.length_nil]
      omega
    have hn : ¬ (((init ++ [x, y, z]).length : Int) - 1 - ((1 : Nat) : Int)) < 0 := by
      simp only [List.length_append, List.length_cons, List.length_nil]
      omega
    unfold entryAt
    rw [if_neg hn, this, getElem?_append_add]
    rfl
  have h2 : entryAt (init ++ [x, y, z]) (((init ++ [x, y, z]).length : Int) - 1 - ((2 : Nat) : Int))
      = .ok x := by
    have : (((init ++ [x, y, z]).length : Int) - 1 - ((2 : Nat) : Int)).toNat = init.length + 0 := by
      simp only [List.length_append, List.length_cons, List.length_nil]
      omega
    have hn : ¬ (((init ++ [x, y, z]).length : Int) - 1 - ((2 : Nat) : Int)) < 0 := by
      simp only [List.length_append, List.length_cons, List.length_nil]
      omega
    unfold entryAt
    rw [if_neg hn, this, getElem?_append_add]
    rfl
  simp only [topThreeLoop, h0, h1, h2]
  rfl

theorem GetTopThree_of_sorted (c : CarCountData) (init : List CarCountEntry)
    (x y z : CarCountEntry) (h : (SortByCount c).Entries = init ++ [x, y, z]) :
    (GetTopThreeEntriesByCount c).2 = .ok [z, y, x] := by
  unfold GetTopThreeEntriesByCount
  simp only
  rw [h]
  exact topThreeLoop_last_three init x y z

theorem SortByCount_length (c : CarCountData) :
    (SortByCount c).Entries.length = c.Entries.length :=
  (outerLoop_perm _ _ c.Entries).length_eq

/-- C5. For every dataset with at least three entries, `GetTopThreeEntriesByCount` returns
exactly three entries of the dataset, highest count first, and every entry of the dataset
that is not among the three returned has a `Count` no greater than that of the last one. -/
theorem GetTopThree_highest_first (c : CarCountData) (h : 3 ≤ c.Entries.length) :
    ∃ r0 r1 r2 rest, (GetTopThreeEntriesByCount c).2 = .ok [r0, r1, r2] ∧
      (r0 :: r1 :: r2 :: rest).Perm c.Entries ∧
      r0.Count ≥ r1.Count ∧ r1.Count ≥ r2.Count ∧ ∀ e ∈ rest, e.Count ≤ r2.Count := by
  obtain ⟨init, x, y, z, hs⟩ := exists_last_three (SortByCount c).Entries
    (by rw [SortByCount_length]; exact h)
  have hsorted := outerLoop_sorted (fun e => e.Count) c.Entries
  have hperm := outerLoop_perm (fun e => e.Count) c.Entries.length c.Entries
  change (SortByCount c).Entries.Pairwise _ at hsorted
  change (SortByCount c).Entries.Perm _ at hperm
  rw [hs] at hsorted hperm
  rw [List.pairwise_append] at hsorted
  obtain ⟨_, h3, hle⟩ := hsorted
  simp at h3
  refine ⟨z, y, x, init, GetTopThree_of_sorted c init x y z hs, ?_, ?_, ?_, ?_⟩
  · refine List.Perm.trans ?_ hperm
    have h1 : (z :: y :: x :: init).Perm ([z, y, x] ++ init) := List.Perm.refl _
    have h2 : ([z, y, x] ++ init).Perm (init ++ [z, y, x]) := List.perm_append_comm
    have h4 : ([z, y, x]).Perm [x, y, z] := List.reverse_perm [x, y, z]
    exact h1.trans (h2.trans (List.Perm.append_left init h4))
  · omega
  · omega
  · intro e he
    exact hle e he x (by simp)

theorem GetTopThree_highest_first_witness :
    ∃ r0 r1 r2 rest,
      (GetTopThreeEntriesByCount ⟨[⟨5, 10⟩, ⟨46, 20⟩, ⟨12, 30⟩, ⟨42, 40⟩]⟩).2 = .ok [r0, r1, r2] ∧
      (r0 :: r1 :: r2 :: rest).Perm [⟨5, 10⟩, ⟨46, 20⟩, ⟨12, 30⟩, ⟨42, 40⟩] ∧
      r0.Count ≥ r1.Count ∧ r1.Count ≥ r2.Count ∧ ∀ e ∈ rest, e.Count ≤ r2.Count :=
  GetTopThree_highest_first ⟨[⟨5, 10⟩, ⟨46, 20⟩, ⟨12, 30⟩, ⟨42, 40⟩]⟩ (by decide)

/-- C6 (as amended). For every dataset with at least three entries, the entries returned by
`GetTopThreeEntriesByCount` that share a `Count` appear in the reverse of the order they had
in the dataset before the call: for every count, the returned entries with that count, read
backwards, are the last entries with that count of the dataset, in dataset order. -/
theorem GetTopThree_ties_reversed (c : CarCountData) (h : 3 ≤ c.Entries.length) :
    ∃ r, (GetTopThreeEntriesByCount c).2 = .ok r ∧
      ∀ v : Int, ∃ pre, c.Entries.filter (fun e => decide (e.Count = v))
        = pre ++ (r.filter (fun e => decide (e.Count = v))).reverse := by
  obtain ⟨init, x, y, z, hs⟩ := exists_last_three (SortByCount c).Entries
    (by rw [SortByCount_length]; exact h)
  refine ⟨[z, y, x], GetTopThree_of_sorted c init x y z hs, ?_⟩
  intro v
  have hf := outerLoop_filter (fun e => e.Count) v c.Entries.length c.Entries
  change (SortByCount c).Entries.filter _ = _ at hf
  rw [hs, List.filter_append] at hf
  refine ⟨init.filter (fun e => decide (e.Count = v)), ?_⟩
  rw [← hf, ← List.filter_reverse]
  rfl

theorem GetTopThree_ties_reversed_witness :
    ∃ r, (GetTopThreeEntriesByCount ⟨[⟨5, 1⟩, ⟨5, 2⟩, ⟨5, 3⟩, ⟨5, 4⟩]⟩).2 = .ok r ∧
      ∀ v : Int, ∃ pre,
        ([⟨5, 1⟩, ⟨5, 2⟩, ⟨5, 3⟩, ⟨5, 4⟩] : List CarCountEntry).filter
            (fun e => decide (e.Count = v))
          = pre ++ (r.filter (fun e => decide (e.Count = v))).reverse :=
  GetTopThree_ties_reversed ⟨[⟨5, 1⟩, ⟨5, 2⟩, ⟨5, 3⟩, ⟨5, 4⟩]⟩ (by decide)

/-- C6 (counterexample). Three entries with the same count 5 and timestamps 1, 2, 3 in
dataset order are returned in the order 3, 2, 1: the result is not a subsequence of the
dataset, so the ties do not keep their original relative order. -/
theorem GetTopThree_ties_not_in_order :
    (GetTopThreeEntriesByCount ⟨[⟨5, 1⟩, ⟨5, 2⟩, ⟨5, 3⟩]⟩).2 = .ok [⟨5, 3⟩, ⟨5, 2⟩, ⟨5, 1⟩] ∧
    ¬ List.Sublist ([⟨5, 3⟩, ⟨5, 2⟩, ⟨5, 1⟩] : List CarCountEntry)
      [⟨5, 1⟩, ⟨5, 2⟩, ⟨5, 3⟩] := by
  refine ⟨rfl, by decide⟩

/-- C8. For every dataset with fewer than three entries, `GetTopThreeEntriesByCount` does not
return a result: the run ends in an index-out-of-range panic. -/
theorem GetTopThree_insufficient (c : CarCountData) (h : c.Entries.length < 3) :
    (GetTopThreeEntriesByCount c).2 = .error .indexOutOfRange := by
  have hl := SortByCount_length c
  unfold GetTopThreeEntriesByCount
  simp only
  match hm : (SortByCount c).Entries with
  | [] => rfl
  | [a] => rfl
  | [a, b] => rfl
  | a :: b :: d :: r =>
    rw [hm] at hl
    simp at hl
    omega

theorem GetTopThree_insufficient_witness :
    (GetTopThreeEntriesByCount ⟨[⟨5, 1638334800⟩, ⟨12, 1638336600⟩]⟩).2
      = .error .indexOutOfRange :=
  GetTopThree_insufficient ⟨[⟨5, 1638334800⟩, ⟨12, 1638336600⟩]⟩ (by decide)

/-! ## `BuildDataset` -/

theorem buildLoop_acc (lines : List GoString) :
    ∀ acc : List CarCountEntry, buildLoop lines ⟨acc⟩
      = (buildLoop lines ⟨[]⟩).map fun d => ⟨acc ++ d.Entries⟩ := by
  induction lines with
  | nil => intro acc; simp [buildLoop, Except.map]
  | cons l ls ih =>
    intro acc
    unfold buildLoop
    cases parseRecord l with
    | error f => rfl
    | ok e =>
      simp only
      rw [ih (acc ++ [e]), ih ([] ++ [e])]
      cases buildLoop ls ⟨[]⟩ with
      | error f => rfl
      | ok d => simp [Except.map]

theorem Split_joinLines (lines : List GoString) (tail : GoString)
    (hl : ∀ l ∈ lines, '\n' ∉ l) :
    Split (joinLines lines tail) '\n' = lines ++ Split tail '\n' := by
  induction lines with
  | nil => rfl
  | cons l ls ih =>
    rw [joinLines, Split_append_sep l _ '\n' (hl l (List.mem_cons_self _ _)),
      ih fun x hx => hl x (List.mem_cons_of_mem _ hx)]
    rfl

theorem BuildDataset_joinLines (lines : List GoString) (tail : GoString)
    (hl : ∀ l ∈ lines, '\n' ∉ l) :
    BuildDataset (joinLines lines tail)
      = buildLoop (lines ++ (Split tail '\n').dropLast) ⟨[]⟩ := by
  unfold BuildDataset
  rw [Split_joinLines lines tail hl, List.dropLast_append_of_ne_nil _ (Split_ne_nil tail '\n')]

theorem buildLoop_error (lines : List GoString) (bad : GoString) (hb : bad ∈ lines)
    (f0 : Fault) (hbad : parseRecord bad = .error f0) :
    ∀ acc, ∃ f, buildLoop lines acc = .error f := by
  induction lines with
  | nil => simp at hb
  | cons l ls ih =>
    intro acc
    unfold buildLoop
    cases hp : parseRecord l with
    | error f => exact ⟨f, rfl⟩
    | ok e =>
      rcases List.mem_cons.1 hb with h | h
      · rw [← h, hbad] at hp
        cases hp
      · exact ih h _

theorem buildLoop_append_error (l1 l2 : List GoString) (f : Fault) :
    ∀ acc, buildLoop l1 acc = .error f → buildLoop (l1 ++ l2) acc = .error f := by
  induction l1 with
  | nil => intro acc h; simp [buildLoop] at h
  | cons l ls ih =>
    intro acc h
    simp only [List.cons_append]
    unfold buildLoop at h ⊢
    cases hp : parseRecord l with
    | error f1 => rw [hp] at h; exact h
    | ok e =>
      rw [hp] at h
      exact ih _ h

theorem parseRecord_no_space (line : GoString) (h : ' ' ∉ line) :
    parseRecord line = .error .indexOutOfRange := by
  unfold parseRecord
  rw [Split_of_not_mem line ' ' h]
  rfl

theorem parseRecord_bad_timestamp (line : GoString) (f : Fault)
    (h : ParseTimestamp (TrimSpace (at0 (Split line ' '))) = .error f) :
    ∃ f1, parseRecord line = .error f1 := by
  unfold parseRecord
  simp only
  cases (Split line ' ')[1]? with
  | none => exact ⟨_, rfl⟩
  | some tok =>
    simp only
    rw [h]
    exact ⟨_, rfl⟩

/-- C10 (as amended). For every input that contains a newline-terminated line which has no
space at all, or whose text before the first space (the timestamp piece), trimmed,
`ParseTimestamp` rejects, `BuildDataset` fails and returns no dataset. -/
theorem BuildDataset_rejects_line (lines : List GoString) (tail bad : GoString)
    (hl : ∀ l ∈ lines, '\n' ∉ l) (hb : bad ∈ lines)
    (hbad : ' ' ∉ bad ∨ ∃ f, ParseTimestamp (TrimSpace (at0 (Split bad ' '))) = .error f) :
    ∃ f, BuildDataset (joinLines lines tail) = .error f := by
  rw [BuildDataset_joinLines lines tail hl]
  have hrec : ∃ f0, parseRecord bad = .error f0 := by
    rcases hbad with h | ⟨f, h⟩
    · exact ⟨_, parseRecord_no_space bad h⟩
    · exact parseRecord_bad_timestamp bad f h
  obtain ⟨f0, hf0⟩ := hrec
  obtain ⟨f, hf⟩ := buildLoop_error lines bad hb f0 hf0 ⟨[]⟩
  exact ⟨f, buildLoop_append_error lines _ f _ hf⟩

theorem BuildDataset_rejects_line_witness :
    ∃ f, BuildDataset (joinLines ["2021-12-01T05:00:00 5".toList, "2021-13-01T05:30:00 12".toList]
      []) = .error f :=
  BuildDataset_rejects_line ["2021-12-01T05:00:00 5".toList, "2021-13-01T05:30:00 12".toList] []
    "2021-13-01T05:30:00 12".toList (by decide) (by decide) (Or.inr ⟨.fatal, rfl⟩)

/-- C10 (counterexample). A line whose count piece is "abc" is accepted with `Count` 0 (the
error of `strconv.Atoi` is ignored); a count piece "-5" is accepted as -5; and a third piece on
the line is ignored. In each case `BuildDataset` returns a dataset. -/
theorem BuildDataset_accepts_malformed :
    BuildDataset "2021-12-01T05:00:00 abc\n".toList = .ok ⟨[⟨0, 1638334800⟩]⟩ ∧
    BuildDataset "2021-12-01T05:00:00 -5\n".toList = .ok ⟨[⟨-5, 1638334800⟩]⟩ ∧
    BuildDataset "2021-12-01T05:00:00 5 x\n".toList = .ok ⟨[⟨5, 1638334800⟩]⟩ :=
  ⟨rfl, rfl, rfl⟩

theorem isDigit_cases (c : Char) (h : c.isDigit = true) :
    c ∈ ['0', '1', '2', '3', '4', '5', '6', '7', '8', '9'] := by
  have h1 : 48 ≤ c.toNat ∧ c.toNat ≤ 57 := by
    simp only [Char.isDigit, Bool.and_eq_true, decide_eq_true_eq] at h
    exact ⟨h.1, h.2⟩
  have h2 : c = Char.ofNat c.toNat := (Char.ofNat_toNat c).symm
  obtain ⟨n, hn⟩ : ∃ n, c.toNat = n := ⟨_, rfl⟩
  rw [hn] at h1 h2
  obtain ⟨h3, h4⟩ := h1
  subst h2
  interval_cases n <;> decide

theorem isDigit_props (c : Char) (h : c.isDigit = true) :
    isSpace c = false ∧ c ≠ '-' ∧ c ≠ '+' ∧ c ≠ ' ' := by
  have hc := isDigit_cases c h
  simp only [List.mem_cons, List.mem_singleton, List.not_mem_nil, or_false] at hc
  rcases hc with h | h | h | h | h | h | h | h | h | h <;> subst h <;> decide

theorem dropWhile_of_all_false (p : Char → Bool) (s : GoString)
    (h : ∀ c ∈ s, p c = false) : s.dropWhile p = s := by
  cases s with
  | nil => rfl
  | cons c cs => simp [List.dropWhile, h c (List.mem_cons_self _ _)]

theorem TrimSpace_of_no_space (s : GoString) (h : ∀ c ∈ s, isSpace c = false) :
    TrimSpace s = s := by
  unfold TrimSpace
  rw [dropWhile_of_all_false isSpace s h,
    dropWhile_of_all_false isSpace s.reverse (fun c hc => h c (List.mem_reverse.1 hc)),
    List.reverse_reverse]

theorem foldl_digits (s : GoString) : ∀ acc : Nat,
    s.foldl (fun n ch => n * 10 + digitVal ch) acc = acc * 10 ^ s.length + decimalValue s := by
  induction s with
  | nil => intro acc; simp [decimalValue]
  | cons c cs ih =>
    intro acc
    rw [List.foldl_cons, ih]
    simp only [decimalValue, List.map_cons, List.reverse_cons, Nat.ofDigits_append,
      Nat.ofDigits_singleton, List.length_reverse, List.length_map, List.length_cons]
    ring

theorem decimalValue_cons (c : Char) (cs : GoString) :
    decimalValue (c :: cs) = digitVal c * 10 ^ cs.length + decimalValue cs := by
  simp only [decimalValue, List.map_cons, List.reverse_cons, Nat.ofDigits_append,
    Nat.ofDigits_singleton, List.length_reverse, List.length_map]
  ring

theorem parseUintLoop_digits (s : GoString) : ∀ n : Nat,
    (∀ c ∈ s, c.isDigit = true) →
    n * 10 ^ s.length + decimalValue s ≤ 18446744073709551615 →
    parseUintLoop s n = .value (n * 10 ^ s.length + decimalValue s) := by
  induction s with
  | nil => intro n _ _; simp [parseUintLoop, decimalValue]
  | cons c cs ih =>
    intro n hd hle
    have hc : c.isDigit = true := hd c (List.mem_cons_self _ _)
    rw [decimalValue_cons, List.length_cons, pow_succ] at hle
    have hp : 1 ≤ 10 ^ cs.length := Nat.one_le_pow _ _ (by decide)
    have h1 : (n * 10 + digitVal c) * 1 ≤ (n * 10 + digitVal c) * 10 ^ cs.length :=
      Nat.mul_le_mul_left _ hp
    have h2 : (n * 10 + digitVal c) * 10 ^ cs.length
        = n * (10 ^ cs.length * 10) + digitVal c * 10 ^ cs.length := by ring
    have h3 : ¬ n ≥ 1844674407370955162 := by omega
    have h4 : ¬ n * 10 + digitVal c > 18446744073709551615 := by omega
    unfold parseUintLoop
    simp only [hc, Bool.not_true, Bool.false_eq_true, if_false, h3, h4]
    rw [ih (n * 10 + digitVal c) (fun x hx => hd x (List.mem_cons_of_mem _ hx)) (by omega)]
    rw [decimalValue_cons, List.length_cons, pow_succ]
    congr 1
    rw [h2]
    ring

theorem Atoi_digits (s : GoString) (hne : s ≠ []) (hd : ∀ c ∈ s, c.isDigit = true)
    (hv : decimalValue s ≤ 9223372036854775807) :
    Atoi s = ((decimalValue s : Int), false) := by
  cases s with
  | nil => exact absurd rfl hne
  | cons c r =>
    have hc := isDigit_props c (hd c (List.mem_cons_self _ _))
    have hl := parseUintLoop_digits (c :: r) 0 hd (by omega)
    rw [Nat.zero_mul, Nat.zero_add] at hl
    unfold Atoi
    simp only [hc.2.1, hc.2.2.1, or_self, if_false, List.isEmpty_cons, Bool.false_eq_true, hl]
    rw [if_neg (by omega)]

theorem Atoi_range_error_first :
    Atoi "20000000000000000000x".toList = (9223372036854775807, true) ∧
    Atoi "-20000000000000000000x".toList = (-9223372036854775808, true) ∧
    Atoi "9999999999999999999x".toList = (0, true) ∧
    Atoi "9223372036854775808".toList = (9223372036854775807, true) ∧
    Atoi "-9223372036854775808".toList = (-9223372036854775808, false) := by
  decide

theorem parseRecord_tokens (tsTok cntTok : GoString) (t : Int)
    (hts : ∀ c ∈ tsTok, isSpace c = false) (hp : ParseTimestamp tsTok = .ok t)
    (hne : cntTok ≠ []) (hd : ∀ c ∈ cntTok, c.isDigit = true)
    (hv : decimalValue cntTok ≤ 9223372036854775807) :
    parseRecord (tsTok ++ ' ' :: cntTok) = .ok ⟨(decimalValue cntTok : Int), t⟩ := by
  have h1 : ' ' ∉ tsTok := fun h => by
    have := hts ' ' h
    revert this
    decide
  have h2 : ' ' ∉ cntTok := fun h => (isDigit_props ' ' (hd ' ' h)).2.2.2 rfl
  have h3 : ∀ c ∈ cntTok, isSpace c = false := fun c hc => (isDigit_props c (hd c hc)).1
  unfold parseRecord
  simp only
  rw [Split_append_sep tsTok cntTok ' ' h1, Split_of_not_mem cntTok ' ' h2]
  simp only [List.getElem?_cons_succ, List.getElem?_cons_zero]
  rw [TrimSpace_of_no_space cntTok h3, Atoi_digits cntTok hne hd hv]
  have h4 : at0 [tsTok, cntTok] = tsTok := rfl
  rw [h4, TrimSpace_of_no_space tsTok hts, hp]
  rfl

theorem BuildDataset_cons_line (line rest : GoString) (e : CarCountEntry)
    (hl : '\n' ∉ line) (hp : parseRecord line = .ok e) :
    BuildDataset (line ++ '\n' :: rest)
      = (BuildDataset rest).map fun d => ⟨e :: d.Entries⟩ := by
  unfold BuildDataset
  rw [Split_append_sep line rest '\n' hl,
    List.dropLast_cons_of_ne_nil (Split_ne_nil rest '\n')]
  have h : ∀ ls, buildLoop (line :: ls) ⟨[]⟩ = buildLoop ls ⟨[e]⟩ := by
    intro ls
    simp [buildLoop, hp]
  rw [h, buildLoop_acc]
  rfl

/-- C9 (as amended). For every newline-terminated line "<timestamp> <count>" (the timestamp
piece first, free of white space and accepted by `ParseTimestamp`, then a single space, then
a non-empty string of decimal digits whose value is in the range of `int`), `BuildDataset`
produces an entry whose `Count` is the integer value of the count piece and whose `Timestamp`
is `ParseTimestamp` of the timestamp piece; the entry comes before those of the rest of the
input. -/
theorem BuildDataset_record_line (tsTok cntTok rest : GoString) (t : Int)
    (hts : ∀ c ∈ tsTok, isSpace c = false) (hp : ParseTimestamp tsTok = .ok t)
    (hne : cntTok ≠ []) (hd : ∀ c ∈ cntTok, c.isDigit = true)
    (hv : decimalValue cntTok ≤ 9223372036854775807) :
    BuildDataset (tsTok ++ ' ' :: cntTok ++ '\n' :: rest)
      = (BuildDataset rest).map fun d => ⟨⟨(decimalValue cntTok : Int), t⟩ :: d.Entries⟩ := by
  have h1 : '\n' ∉ tsTok ++ ' ' :: cntTok := by
    intro h
    rcases List.mem_append.1 h with h | h
    · have := hts '\n' h
      revert this
      decide
    · rcases List.mem_cons.1 h with h | h
      · revert h
        decide
      · have := (isDigit_props '\n' (hd '\n' h)).1
        revert this
        decide
  have h2 := BuildDataset_cons_line (tsTok ++ ' ' :: cntTok) rest _ h1
    (parseRecord_tokens tsTok cntTok t hts hp hne hd hv)
  simpa using h2

theorem BuildDataset_record_line_witness :
    BuildDataset ("2021-12-01T05:00:00".toList ++ ' ' :: "46".toList ++ '\n' ::
      "2021-12-01T05:30:00 9223372036854775807\n".toList)
      = .ok ⟨[⟨46, 1638334800⟩, ⟨9223372036854775807, 1638336600⟩]⟩ :=
  (BuildDataset_record_line "2021-12-01T05:00:00".toList "46".toList
    "2021-12-01T05:30:00 9223372036854775807\n".toList 1638334800
    (by decide) rfl (by decide) (by decide) (by decide)).trans rfl

/-- C9 (counterexample). A line in the grammar "<count> <timestamp>" is not accepted:
`BuildDataset` reads the timestamp from the first piece, "5", and ends in `log.Fatal`. -/
theorem BuildDataset_count_first_fails :
    BuildDataset "5 2021-12-01T05:00:00\n".toList = .error .fatal := rfl

/-! ## `ParseTimestamp` yields four-digit years -/

theorem getnum_suffix (s : GoString) (fixed : Bool) (n : Nat) (r : GoString)
    (h : getnum s fixed = some (n, r)) : r <:+ s := by
  unfold getnum at h
  split at h
  · simp at h
  · rename_i c0 rest
    split at h
    · simp at h
    · split at h
      · split at h
        · simp at h
        · simp only [Option.some.injEq, Prod.mk.injEq] at h
          rw [← h.2]
          exact List.suffix_cons _ _
      · rename_i c1 rest1
        split at h
        · simp only [Option.some.injEq, Prod.mk.injEq] at h
          rw [← h.2]
          exact (List.suffix_cons _ _).trans (List.suffix_cons _ _)
        · split at h
          · simp at h
          · simp only [Option.some.injEq, Prod.mk.injEq] at h
            rw [← h.2]
            exact List.suffix_cons _ _

theorem skipChar_suffix (s : GoString) (c : Char) (r : GoString)
    (h : skipChar s c = some r) : r <:+ s := by
  unfold skipChar at h
  split at h
  · simp at h
  · split at h
    · simp only [Option.some.injEq] at h
      rw [← h]
      exact List.suffix_cons _ _
    · simp at h

theorem digitVal_le (c : Char) (h : c.isDigit = true) : digitVal c ≤ 9 := by
  have hc := isDigit_cases c h
  simp only [List.mem_cons, List.mem_singleton, List.not_mem_nil, or_false] at hc
  rcases hc with h | h | h | h | h | h | h | h | h | h <;> subst h <;> decide

theorem parseYear_spec (s : GoString) (y : Int) (r : GoString)
    (h : parseYear s = some (y, r)) : 0 ≤ y ∧ y ≤ 9999 ∧ r <:+ s := by
  unfold parseYear at h
  split at h
  · rename_i a b c d rest
    split at h
    · rename_i hd
      simp only [Bool.and_eq_true] at hd
      simp only [Option.some.injEq, Prod.mk.injEq] at h
      have ha := digitVal_le a hd.1.1.1
      have hb := digitVal_le b hd.1.1.2
      have hc := digitVal_le c hd.1.2
      have hdd := digitVal_le d hd.2
      refine ⟨by omega, by omega, ?_⟩
      rw [← h.2]
      exact (List.suffix_cons _ _).trans ((List.suffix_cons _ _).trans
        ((List.suffix_cons _ _).trans (List.suffix_cons _ _)))
    · simp at h
  · simp at h

theorem require_some (b : Bool) (u : Unit) (h : require b = some u) : b = true := by
  unfold require at h
  split at h
  · assumption
  · simp at h

theorem parseDate_spec (s : GoString) (y : Int) (m d : Nat) (r : GoString)
    (h : parseDate s = some (y, m, d, r)) :
    0 ≤ y ∧ y ≤ 9999 ∧ 1 ≤ m ∧ m ≤ 12 ∧ r <:+ s := by
  unfold parseDate at h
  simp only [Option.bind_eq_bind, Option.bind_eq_some, Option.pure_def, Option.some.injEq,
    Prod.mk.injEq] at h
  obtain ⟨⟨y1, v1⟩, h1, v2, h2, ⟨m1, v3⟩, h3, u, h4, v4, h5, ⟨d1, v5⟩, h6, e1, e2, e3, e4⟩ := h
  simp only at *
  obtain ⟨hy0, hy1, hs1⟩ := parseYear_spec s y1 v1 h1
  have hm := require_some _ u h4
  simp only [decide_eq_true_eq] at hm
  subst e1; subst e2; subst e4
  refine ⟨hy0, hy1, by omega, by omega, ?_⟩
  exact (getnum_suffix _ _ _ _ h6).trans ((skipChar_suffix _ _ _ h5).trans
    ((getnum_suffix _ _ _ _ h3).trans ((skipChar_suffix _ _ _ h2).trans hs1)))

theorem skipFraction_suffix (s : GoString) : skipFraction s <:+ s := by
  unfold skipFraction
  split
  · split
    · exact (List.dropWhile_suffix _).trans
        ((List.suffix_cons _ _).trans (List.suffix_cons _ _))
    · exact List.suffix_refl _
  · exact List.suffix_refl _

theorem parseClock_spec (s : GoString) (hh mm ss : Nat) (r : GoString)
    (h : parseClock s = some (hh, mm, ss, r)) :
    hh < 24 ∧ mm < 60 ∧ ss < 60 ∧ r <:+ s := by
  unfold parseClock at h
  simp only [Option.bind_eq_bind, Option.bind_eq_some, Option.pure_def, Option.some.injEq,
    Prod.mk.injEq] at h
  obtain ⟨⟨a1, v1⟩, h1, u1, h2, v2, h3, ⟨a2, v3⟩, h4, u2, h5, v4, h6, ⟨a3, v5⟩, h7, u3, h8,
    e1, e2, e3, e4⟩ := h
  simp only at *
  have c1 := require_some _ u1 h2
  have c2 := require_some _ u2 h5
  have c3 := require_some _ u3 h8
  simp only [decide_eq_true_eq] at c1 c2 c3
  subst e1; subst e2; subst e3; subst e4
  refine ⟨c1, c2, c3, ?_⟩
  exact (skipFraction_suffix _).trans ((getnum_suffix _ _ _ _ h7).trans
    ((skipChar_suffix _ _ _ h6).trans ((getnum_suffix _ _ _ _ h4).trans
      ((skipChar_suffix _ _ _ h3).trans (getnum_suffix _ _ _ _ h1)))))

theorem parseZone_of_last_Z (v : GoString) (off : Int)
    (h : parseZone v = some (off, [])) (hz : v.getLast? = some 'Z') : off = 0 := by
  unfold parseZone at h
  split at h
  · simp only [Option.some.injEq, Prod.mk.injEq] at h
    exact h.1.symm
  · rename_i sg h1 h2 c m1 m2 rest hne
    split at h
    · simp at h
    · split at h
      · split at h
        · simp at h
        · split at h
          · simp only [Option.some.injEq, Prod.mk.injEq] at h
            have hr := h.2
            subst hr
            rename_i hr mm r1 r2 hg1 hg2 _ _
            simp at hz
            subst hz
            simp [getnum] at hg2
          · split at h
            · simp only [Option.some.injEq, Prod.mk.injEq] at h
              have hr := h.2
              subst hr
              rename_i hr mm r1 r2 hg1 hg2 _ _ _
              simp at hz
              subst hz
              simp [getnum] at hg2
            · simp at h
      · simp at h
  · simp at h

theorem daysSinceEpoch_range (y : Int) (h0 : 0 ≤ y) (h1 : y ≤ 9999) :
    106751990353566 ≤ daysSinceEpoch y ∧
    (y ≤ 9998 → daysSinceEpoch y ≤ 106751994005261) ∧
    (y = 9999 → daysSinceEpoch y = 106751994005626) := by
  unfold daysSinceEpoch absoluteZeroYear
  simp only
  generalize hY : (y - -292277022399).toNat = Y
  have hY1 : (Y : Int) = y + 292277022399 := by omega
  generalize hn : Y / 400 = n
  have hn1 : 730692555 ≤ n := by omega
  have hn2 : n ≤ 730692580 := by omega
  generalize hr : Y - 400 * n = r
  have hr1 : r < 400 := by omega
  have hr2 : n = 730692555 → 399 ≤ r := by omega
  have hr3 : n = 730692580 → y ≤ 9998 → r ≤ 397 := by omega
  have hr4 : y = 9999 → n = 730692580 ∧ r = 398 := by omega
  generalize hc : r / 100 = c
  generalize hr5 : r - 100 * c = q
  generalize hf : q / 4 = f
  refine ⟨?_, ?_, ?_⟩
  · omega
  · intro hy
    omega
  · intro hy
    omega

theorem yearOffset_le (y : Int) (m d : Nat) (hm1 : 1 ≤ m) (hm2 : m ≤ 12) (hd1 : 1 ≤ d)
    (hd2 : d ≤ daysIn m y) :
    daysBefore.getD (m - 1) 0 + (if isLeap y && decide (m ≥ 3) then 1 else 0) + (d - 1)
      ≤ 364 + (if isLeap y then 1 else 0) := by
  unfold daysIn at hd2
  cases hl : isLeap y <;> interval_cases m <;> simp [daysBefore, hl] at hd2 ⊢ <;> omega

theorem dateUnix_range (y : Int) (m d hh mm ss : Nat) (h0 : 0 ≤ y) (h1 : y ≤ 9999)
    (hm1 : 1 ≤ m) (hm2 : m ≤ 12) (hd1 : 1 ≤ d) (hd2 : d ≤ daysIn m y)
    (hh1 : hh < 24) (hmm : mm < 60) (hss : ss < 60) :
    fourDigitYear (dateUnix y m d hh mm ss) := by
  obtain ⟨e1, e2, e3⟩ := daysSinceEpoch_range y h0 h1
  have ho := yearOffset_le y m d hm1 hm2 hd1 hd2
  have hl : (if isLeap y = true then 1 else 0 : Nat) ≤ 1 := by split <;> omega
  have hl2 : y = 9999 → (if isLeap y = true then 1 else 0 : Nat) = 0 := by
    intro h
    subst h
    decide
  unfold fourDigitYear dateUnix unixToAbsolute
  simp only
  constructor
  · omega
  · by_cases hy : y = 9999
    · have := e3 hy
      have := hl2 hy
      omega
    · have := e2 (by omega)
      omega

theorem ParseTimestamp_fourDigitYear (iso : GoString) (t : Int)
    (h : ParseTimestamp iso = .ok t) : fourDigitYear t := by
  unfold ParseTimestamp at h
  split at h
  · rename_i t1 hp
    simp only [Except.ok.injEq] at h
    subst h
    unfold parseRFC3339 at hp
    simp only [Option.bind_eq_bind, Option.bind_eq_some, Option.pure_def, Option.some.injEq]
      at hp
    obtain ⟨⟨y, m, d, v1⟩, h1, v2, h2, ⟨hh, mm, ss, v3⟩, h3, ⟨off, v4⟩, h4, u1, h5, u2, h6,
      h7⟩ := hp
    simp only at *
    obtain ⟨hy0, hy1, hm1, hm2, hs1⟩ := parseDate_spec _ _ _ _ _ h1
    obtain ⟨c1, c2, c3, hs2⟩ := parseClock_spec _ _ _ _ _ h3
    have hv4 : v4 = [] := by
      have := require_some _ u1 h5
      simpa using this
    subst hv4
    have hd := require_some _ u2 h6
    simp only [decide_eq_true_eq] at hd
    have hsuf : v3 <:+ iso ++ ['Z'] := hs2.trans ((skipChar_suffix _ _ _ h2).trans hs1)
    have hne : v3 ≠ [] := by
      intro e
      rw [e] at h4
      simp [parseZone] at h4
    have hlast : v3.getLast? = some 'Z' := by
      obtain ⟨p, hp⟩ := hsuf
      rw [← List.getLast?_append_of_ne_nil p hne, hp]
      exact List.getLast?_concat _
    have hoff := parseZone_of_last_Z v3 off h4 hlast
    rw [← h7, hoff, sub_zero]
    exact dateUnix_range y m d hh mm ss hy0 hy1 hm1 hm2 hd.1 hd.2 c1 c2 c3
  · simp at h

theorem parseRecord_fourDigitYear (line : GoString) (e : CarCountEntry)
    (h : parseRecord line = .ok e) : fourDigitYear e.Timestamp := by
  unfold parseRecord at h
  simp only at h
  split at h
  · simp at h
  · split at h
    · rename_i ts hts
      simp only [Except.ok.injEq] at h
      rw [← h]
      exact ParseTimestamp_fourDigitYear _ ts hts
    · simp at h

theorem buildLoop_fourDigitYear (lines : List GoString) :
    ∀ (acc d : CarCountData), (∀ e ∈ acc.Entries, fourDigitYear e.Timestamp) →
      buildLoop lines acc = .ok d → ∀ e ∈ d.Entries, fourDigitYear e.Timestamp := by
  induction lines with
  | nil =>
    intro acc d hacc h
    simp only [buildLoop, Except.ok.injEq] at h
    rw [← h]
    exact hacc
  | cons l ls ih =>
    intro acc d hacc h
    unfold buildLoop at h
    split at h
    · rename_i e he
      refine ih _ d ?_ h
      intro x hx
      rcases List.mem_append.1 hx with hx | hx
      · exact hacc x hx
      · have : x = e := by simpa using hx
        rw [this]
        exact parseRecord_fourDigitYear l e he
    · simp at h

theorem BuildDataset_fourDigitYear (data : GoString) (d : CarCountData)
    (h : BuildDataset data = .ok d) : ∀ e ∈ d.Entries, fourDigitYear e.Timestamp :=
  buildLoop_fourDigitYear _ ⟨[]⟩ d (by simp) h

/-! ## `GetTopThreeEntriesByCount` and the receiver -/

theorem outerLoop_of_sorted (key : CarCountEntry → Int) (k : Nat) (es : List CarCountEntry)
    (hs : es.Pairwise (fun x y => key x ≤ key y)) : outerLoop key k es = es := by
  rw [outerLoop_eq_iterate]
  exact Function.iterate_fixed (bubble_of_sorted key es hs) k

theorem SortByCount_idem (c : CarCountData) : SortByCount (SortByCount c) = SortByCount c := by
  have hs := outerLoop_sorted (fun e => e.Count) c.Entries
  show CarCountData.mk _ = CarCountData.mk _
  congr 1
  exact outerLoop_of_sorted _ _ _ hs

theorem eq_of_perm_of_sorted_key (key : CarCountEntry → Int) (es : List CarCountEntry)
    (k : Nat) (h : outerLoop key k es = es) (hk : k = es.length) :
    es.Pairwise (fun x y => key x ≤ key y) := by
  subst hk
  rw [← h]
  exact outerLoop_sorted key es

/-- C12 (as amended). For every dataset (with at least three entries or not), the entry
sequence after `GetTopThreeEntriesByCount` is the stable ascending sort by `Count` of the
sequence before the call: a permutation of it, and identical to it exactly when the entries
were already in non-decreasing `Count` order. -/
theorem GetTopThree_sorts_receiver (c : CarCountData) :
    (GetTopThreeEntriesByCount c).1.Entries = stableSortBy (fun e => e.Count) c.Entries ∧
    (GetTopThreeEntriesByCount c).1.Entries.Perm c.Entries ∧
    ((GetTopThreeEntriesByCount c).1 = c ↔
      c.Entries.Pairwise (fun x y => x.Count ≤ y.Count)) := by
  refine ⟨outerLoop_eq_stableSortBy _ c.Entries, outerLoop_perm _ _ c.Entries, ?_⟩
  constructor
  · intro h
    have h1 : outerLoop (fun e => e.Count) c.Entries.length c.Entries = c.Entries :=
      congrArg CarCountData.Entries h
    exact eq_of_perm_of_sorted_key _ _ _ h1 rfl
  · intro hs
    show CarCountData.mk _ = c
    rw [outerLoop_of_sorted _ _ _ hs]

/-- C12 (counterexample). A dataset of three entries with counts 3, 2, 1 holds them in the
order 1, 2, 3 after `GetTopThreeEntriesByCount`: the call has reordered the dataset. -/
theorem GetTopThree_reorders_dataset :
    (GetTopThreeEntriesByCount ⟨[⟨3, 10⟩, ⟨2, 20⟩, ⟨1, 30⟩]⟩).1
      = ⟨[⟨1, 30⟩, ⟨2, 20⟩, ⟨3, 10⟩]⟩ ∧
    (GetTopThreeEntriesByCount ⟨[⟨3, 10⟩, ⟨2, 20⟩, ⟨1, 30⟩]⟩).1
      ≠ ⟨[⟨3, 10⟩, ⟨2, 20⟩, ⟨1, 30⟩]⟩ := by
  decide

/-- C13. For every dataset with at least three entries, calling `GetTopThreeEntriesByCount`
twice in succession (the second call on the dataset as the first call left it) returns the
same three entries in the same order both times. -/
theorem GetTopThree_twice (c : CarCountData) (h : 3 ≤ c.Entries.length) :
    ∃ r0 r1 r2, (GetTopThreeEntriesByCount c).2 = .ok [r0, r1, r2] ∧
      (GetTopThreeEntriesByCount (GetTopThreeEntriesByCount c).1).2 = .ok [r0, r1, r2] := by
  obtain ⟨init, x, y, z, hs⟩ := exists_last_three (SortByCount c).Entries
    (by rw [SortByCount_length]; exact h)
  refine ⟨z, y, x, GetTopThree_of_sorted c init x y z hs, ?_⟩
  have h1 : (GetTopThreeEntriesByCount c).1 = SortByCount c := rfl
  rw [h1]
  exact GetTopThree_of_sorted (SortByCount c) init x y z (by rw [SortByCount_idem]; exact hs)

theorem GetTopThree_twice_witness :
    ∃ r0 r1 r2,
      (GetTopThreeEntriesByCount ⟨[⟨5, 10⟩, ⟨46, 20⟩, ⟨12, 30⟩, ⟨46, 40⟩]⟩).2
        = .ok [r0, r1, r2] ∧
      (GetTopThreeEntriesByCount
        (GetTopThreeEntriesByCount ⟨[⟨5, 10⟩, ⟨46, 20⟩, ⟨12, 30⟩, ⟨46, 40⟩]⟩).1).2
        = .ok [r0, r1, r2] :=
  GetTopThree_twice ⟨[⟨5, 10⟩, ⟨46, 20⟩, ⟨12, 30⟩, ⟨46, 40⟩]⟩ (by decide)

/-- C14. For every dataset with at least three entries, the result of
`GetTopThreeEntriesByCount` equals the sequence obtained by calling `SortByCount` on the
dataset, taking its last three entries (`Entries[len-3:]`), and reversing them. -/
theorem GetTopThree_eq_reverse_last_three (c : CarCountData) (h : 3 ≤ c.Entries.length) :
    (GetTopThreeEntriesByCount c).2
      = .ok (((SortByCount c).Entries.drop ((SortByCount c).Entries.length - 3)).reverse) := by
  obtain ⟨init, x, y, z, hs⟩ := exists_last_three (SortByCount c).Entries
    (by rw [SortByCount_length]; exact h)
  rw [GetTopThree_of_sorted c init x y z hs, hs]
  have hl : (init ++ [x, y, z]).length - 3 = init.length := by simp
  rw [hl, List.drop_left]
  rfl

theorem GetTopThree_eq_reverse_last_three_witness :
    (GetTopThreeEntriesByCount ⟨[⟨5, 10⟩, ⟨46, 20⟩, ⟨12, 30⟩, ⟨42, 40⟩]⟩).2
      = .ok [⟨46, 20⟩, ⟨42, 40⟩, ⟨12, 30⟩] :=
  (GetTopThree_eq_reverse_last_three ⟨[⟨5, 10⟩, ⟨46, 20⟩, ⟨12, 30⟩, ⟨42, 40⟩]⟩
    (by decide)).trans rfl

/-! ## `SortByTimestamp` -/

/-- C17. `SortByTimestamp` leaves the entries equal to the stable ascending sort by
`Timestamp` of the entries before the call: the n passes of n-1 adjacent compare-and-swap
steps reach non-decreasing `Timestamp` order, the result is a permutation of the previous
entries, and for every timestamp the entries with that timestamp are the same sequence as
before (entries with equal `Timestamp` keep their relative order). -/
theorem SortByTimestamp_stable_sort (d : CarCountData) :
    (SortByTimestamp d).Entries = stableSortBy (fun e => e.Timestamp) d.Entries ∧
    (SortByTimestamp d).Entries.Pairwise (fun x y => x.Timestamp ≤ y.Timestamp) ∧
    (SortByTimestamp d).Entries.Perm d.Entries ∧
    ∀ v : Int, (SortByTimestamp d).Entries.filter (fun e => decide (e.Timestamp = v))
      = d.Entries.filter (fun e => decide (e.Timestamp = v)) :=
  ⟨outerLoop_eq_stableSortBy _ d.Entries, outerLoop_sorted (fun e => e.Timestamp) d.Entries,
    outerLoop_perm _ _ d.Entries,
    fun v => outerLoop_filter (fun e => e.Timestamp) v _ d.Entries⟩

/-! ## Aggregates do not depend on the entry order -/

theorem countSum_perm (l1 l2 : List CarCountEntry) (h : l1.Perm l2) :
    countSum l1 = countSum l2 := by
  unfold countSum
  exact (h.map _).sum_eq

theorem GetTotalCount_perm (c1 c2 : CarCountData) (h : c1.Entries.Perm c2.Entries) :
    GetTotalCount c1 = GetTotalCount c2 := by
  rw [GetTotalCount_eq, GetTotalCount_eq, countSum_perm _ _ h]

theorem GetDailyTotals_perm (c1 c2 : CarCountData) (days : List GoString)
    (h : c1.Entries.Perm c2.Entries) : GetDailyTotals c1 days = GetDailyTotals c2 days := by
  unfold GetDailyTotals
  apply List.map_congr_left
  intro day _
  have h1 := foldl_wrap_filter
    (fun e => Contains (at0 (Timestamp2String e.Timestamp)) day) c1.Entries 0
  have h2 := foldl_wrap_filter
    (fun e => Contains (at0 (Timestamp2String e.Timestamp)) day) c2.Entries 0
  rw [wrapInt_zero] at h1 h2
  rw [h1, h2, countSum_perm _ _ (h.filter _)]

/-- C19. The aggregate queries do not depend on the entry order: for every dataset and every
list of days, `GetTotalCount` and `GetDailyTotals(days)` return the same values after
`SortByTimestamp` or `SortByCount` as before the sort. -/
theorem aggregates_invariant_under_sort (c : CarCountData) (days : List GoString) :
    GetTotalCount (SortByTimestamp c) = GetTotalCount c ∧
    GetTotalCount (SortByCount c) = GetTotalCount c ∧
    GetDailyTotals (SortByTimestamp c) days = GetDailyTotals c days ∧
    GetDailyTotals (SortByCount c) days = GetDailyTotals c days :=
  ⟨GetTotalCount_perm _ _ (outerLoop_perm _ _ c.Entries),
    GetTotalCount_perm _ _ (outerLoop_perm _ _ c.Entries),
    GetDailyTotals_perm _ _ days (outerLoop_perm _ _ c.Entries),
    GetDailyTotals_perm _ _ days (outerLoop_perm _ _ c.Entries)⟩

/-! ## What follows the last newline -/

theorem Split_append_sep_general (a b : GoString) (sep : Char) :
    Split (a ++ sep :: b) sep = Split a sep ++ Split b sep := by
  induction a with
  | nil => simp [Split]
  | cons c cs ih =>
    by_cases hc : c = sep
    · simp [Split, hc, ih]
    · have hne := Split_ne_nil cs sep
      simp only [List.cons_append, Split, hc, if_false, List.append_eq]
      rw [ih]
      cases hs : Split cs sep with
      | nil => exact absurd hs hne
      | cons w ws => simp

theorem BuildDataset_drop_tail (a b : GoString) (hb : '\n' ∉ b) :
    BuildDataset (a ++ '\n' :: b) = buildLoop (Split a '\n') ⟨[]⟩ := by
  unfold BuildDataset
  rw [Split_append_sep_general, Split_of_not_mem b '\n' hb, List.dropLast_concat]

/-- C20. `BuildDataset` discards whatever follows the last newline of its input, whether or
not it is empty: an input `a ++ "\n" ++ b`, where `b` holds no newline, gives the same as
the input truncated just after that last newline, `a ++ "\n"`; and an input with no newline
at all yields an empty dataset, without any error. -/
theorem BuildDataset_ignores_after_last_newline :
    (∀ a b : GoString, '\n' ∉ b → BuildDataset (a ++ '\n' :: b) = BuildDataset (a ++ ['\n'])) ∧
    (∀ b : GoString, '\n' ∉ b → BuildDataset b = .ok ⟨[]⟩) := by
  constructor
  · intro a b hb
    rw [BuildDataset_drop_tail a b hb, BuildDataset_drop_tail a [] (by simp)]
  · intro b hb
    unfold BuildDataset
    rw [Split_of_not_mem b '\n' hb]
    rfl

theorem BuildDataset_ignores_after_last_newline_witness :
    BuildDataset ("2021-12-01T05:00:00 5".toList ++ '\n' :: "2021-12-01T05:30:00 12".toList)
      = .ok ⟨[⟨5, 1638334800⟩]⟩ ∧
    BuildDataset "2021-12-01T05:00:00 5".toList = .ok ⟨[]⟩ :=
  ⟨(BuildDataset_ignores_after_last_newline.1 "2021-12-01T05:00:00 5".toList
      "2021-12-01T05:30:00 12".toList (by decide)).trans rfl,
    BuildDataset_ignores_after_last_newline.2 "2021-12-01T05:00:00 5".toList (by decide)⟩

/-! ## Line order -/

theorem buildLoop_forall₂ (lines : List GoString) :
    ∀ es : List CarCountEntry,
      buildLoop lines ⟨[]⟩ = .ok ⟨es⟩ ↔
        List.Forall₂ (fun l e => parseRecord l = .ok e) lines es := by
  induction lines with
  | nil =>
    intro es
    simp only [buildLoop, Except.ok.injEq, CarCountData.mk.injEq, List.forall₂_nil_left_iff]
    exact eq_comm
  | cons l ls ih =>
    intro es
    cases hp : parseRecord l with
    | error f =>
      have hstep : buildLoop (l :: ls) ⟨[]⟩ = .error f := by simp [buildLoop, hp]
      rw [hstep]
      constructor
      · intro h
        cases h
      · intro h
        cases h with
        | cons h1 _ =>
          rw [hp] at h1
          cases h1
    | ok e =>
      have hstep : buildLoop (l :: ls) ⟨[]⟩
          = (buildLoop ls ⟨[]⟩).map fun d => ⟨e :: d.Entries⟩ := by
        have h0 : buildLoop (l :: ls) ⟨[]⟩ = buildLoop ls ⟨[e]⟩ := by simp [buildLoop, hp]
        rw [h0, buildLoop_acc]
        rfl
      rw [hstep]
      constructor
      · intro h
        cases hb : buildLoop ls ⟨[]⟩ with
        | error f =>
          rw [hb] at h
          cases h
        | ok d =>
          rw [hb] at h
          simp only [Except.map, Except.ok.injEq, CarCountData.mk.injEq] at h
          rw [← h]
          exact List.Forall₂.cons hp ((ih d.Entries).1 hb)
      · intro h
        cases h with
        | cons h1 h2 =>
          rename_i e1 es1
          rw [hp] at h1
          simp only [Except.ok.injEq] at h1
          rw [(ih es1).2 h2, h1]
          rfl

/-- C15. For every input text made of n newline-terminated lines, `BuildDataset` accepts it
with a dataset exactly when every line is accepted by the loop body, and then the dataset has
exactly n entries, the i-th of which is the one read from the i-th line: the line order is
kept and no record is dropped, duplicated or reordered. -/
theorem BuildDataset_keeps_line_order (lines : List GoString) (d : CarCountData)
    (hl : ∀ l ∈ lines, '\n' ∉ l) :
    (BuildDataset (joinLines lines []) = .ok d ↔
      List.Forall₂ (fun l e => parseRecord l = .ok e) lines d.Entries) ∧
    (BuildDataset (joinLines lines []) = .ok d →
      d.Entries.length = lines.length ∧
      ∀ i (hi : i < lines.length), ∃ e, d.Entries[i]? = some e ∧
        parseRecord (lines.get ⟨i, hi⟩) = .ok e) := by
  have hb : BuildDataset (joinLines lines []) = buildLoop lines ⟨[]⟩ := by
    rw [BuildDataset_joinLines lines [] hl]
    simp [Split]
  have hiff : BuildDataset (joinLines lines []) = .ok d ↔
      List.Forall₂ (fun l e => parseRecord l = .ok e) lines d.Entries := by
    rw [hb]
    exact buildLoop_forall₂ lines d.Entries
  refine ⟨hiff, fun h => ?_⟩
  have hf := hiff.1 h
  refine ⟨hf.length_eq.symm, fun i hi => ?_⟩
  have hi2 : i < d.Entries.length := by rw [← hf.length_eq]; exact hi
  refine ⟨d.Entries.get ⟨i, hi2⟩, by simp, ?_⟩
  exact List.Forall₂.get hf hi hi2

theorem BuildDataset_keeps_line_order_witness :
    BuildDataset (joinLines ["2021-12-01T05:30:00 12".toList, "2021-12-01T05:00:00 5".toList] [])
      = .ok ⟨[⟨12, 1638336600⟩, ⟨5, 1638334800⟩]⟩ :=
  ((BuildDataset_keeps_line_order
    ["2021-12-01T05:30:00 12".toList, "2021-12-01T05:00:00 5".toList]
    ⟨[⟨12, 1638336600⟩, ⟨5, 1638334800⟩]⟩ (by decide)).1).2
    (List.Forall₂.cons rfl (List.Forall₂.cons rfl List.Forall₂.nil))

/-! ## The fixture -/

set_option maxRecDepth 100000 in
/-- C16. For the 24-entry fixture dataset: `GetTotalCount` is 398; `GetUniqueDays` is
2021-12-01, 2021-12-05, 2021-12-08, 2021-12-09; `GetDailyTotals` of those days has counts
179, 81, 134, 4 in that order; and `GetTopThreeEntriesByCount` returns entries with counts
46, 42, 33 in that order. -/
theorem fixture_values :
    testData.Entries.length = 24 ∧
    GetTotalCount testData = 398 ∧
    GetUniqueDays testData
      = ["2021-12-01".toList, "2021-12-05".toList, "2021-12-08".toList, "2021-12-09".toList] ∧
    GetDailyTotals testData (GetUniqueDays testData)
      = [⟨"2021-12-01".toList, 179⟩, ⟨"2021-12-05".toList, 81⟩, ⟨"2021-12-08".toList, 134⟩,
          ⟨"2021-12-09".toList, 4⟩] ∧
    (GetTopThreeEntriesByCount testData).2
      = .ok [⟨46, 1638343800⟩, ⟨42, 1638345600⟩, ⟨33, 1638986400⟩] := by
  refine ⟨rfl, ?_, ?_, ?_, ?_⟩
  · decide
  · decide
  · decide
  · rfl

/-! ## The calendar computations are inverse to each other -/

theorem cycles_inverse (D n d1 c c2 d2 f d3 g g2 Y : Nat) (hn : D / 146097 = n)
    (hd1 : D - 146097 * n = d1) (hc : d1 / 36524 = c) (hc2 : c - c / 4 = c2)
    (hd2 : d1 - 36524 * c2 = d2) (hf : d2 / 1461 = f) (hd3 : d2 - 1461 * f = d3)
    (hg : d3 / 365 = g) (hg2 : g - g / 4 = g2) (hY : 400 * n + 100 * c2 + 4 * f + g2 = Y) :
    daysSinceEpoch ((Y : Int) + absoluteZeroYear) + (d3 - 365 * g2) = D ∧
    d3 - 365 * g2 < 365 + (if isLeap ((Y : Int) + absoluteZeroYear) then 1 else 0) := by
  have hd1a : d1 < 146097 := by omega
  have hd1b : D = 146097 * n + d1 := by omega
  have hc2a : c2 ≤ 3 := by omega
  have hd2a : d2 ≤ 36524 := by omega
  have hd2b : d1 = 36524 * c2 + d2 := by omega
  have hd2c : d2 = 36524 → c2 = 3 := by omega
  have hfa : f ≤ 24 := by omega
  have hd3a : d3 ≤ 1460 := by omega
  have hd3b : d2 = 1461 * f + d3 := by omega
  have hg2a : g2 ≤ 3 := by omega
  have hg2b : 365 * g2 ≤ d3 := by omega
  have hg2c : d3 - 365 * g2 ≤ 365 := by omega
  have hg2d : d3 - 365 * g2 = 365 → g2 = 3 ∧ d3 = 1460 := by omega
  clear hn hd1 hc hc2 hd2 hf hd3 hg hg2
  constructor
  · unfold daysSinceEpoch absoluteZeroYear
    simp only
    have hY0 : ((Y : Int) + -292277022399 - -292277022399).toNat = Y := by omega
    rw [hY0]
    have h400 : Y / 400 = n := by omega
    rw [h400]
    have h100 : (Y - 400 * n) / 100 = c2 := by omega
    rw [h100]
    have h4 : (Y - 400 * n - 100 * c2) / 4 = f := by omega
    rw [h4]
    omega
  · unfold absoluteZeroYear
    by_cases hl : isLeap ((Y : Int) + -292277022399) = true
    · rw [if_pos hl]
      omega
    · rw [if_neg hl]
      have hne : d3 - 365 * g2 ≠ 365 := by
        intro h365
        obtain ⟨e1, e2⟩ := hg2d h365
        apply hl
        unfold isLeap
        have h4 : ((Y : Int) + -292277022399) % 4 = 0 := by omega
        by_cases hf24 : f = 24
        · have h400 : ((Y : Int) + -292277022399) % 400 = 0 := by omega
          simp [h4, h400]
        · have h100 : ((Y : Int) + -292277022399) % 100 ≠ 0 := by omega
          simp [h4, h100]
      omega

theorem absDate_inverse (abs : Nat) :
    ∃ yd, (absDate abs).2 = monthDay (absDate abs).1 yd ∧
      daysSinceEpoch (absDate abs).1 + yd = abs / 86400 ∧
      yd < 365 + (if isLeap (absDate abs).1 then 1 else 0) := by
  unfold absDate
  simp only
  exact ⟨_, rfl, cycles_inverse _ _ _ _ _ _ _ _ _ _ _ rfl rfl rfl rfl rfl rfl rfl rfl rfl rfl⟩

theorem clock_inverse (abs : Nat) :
    abs % 86400 / 3600 < 24 ∧
    (abs % 86400 - abs % 86400 / 3600 * 3600) / 60 < 60 ∧
    abs % 86400 - abs % 86400 / 3600 * 3600
      - (abs % 86400 - abs % 86400 / 3600 * 3600) / 60 * 60 < 60 ∧
    abs % 86400 / 3600 * 3600 + (abs % 86400 - abs % 86400 / 3600 * 3600) / 60 * 60
      + (abs % 86400 - abs % 86400 / 3600 * 3600
        - (abs % 86400 - abs % 86400 / 3600 * 3600) / 60 * 60) = abs % 86400 := by
  omega

theorem monthDay_core (day : Nat) (hd : day ≤ 364) :
    ∃ m dd, (if day ≥ daysBefore.getD (day / 31 + 1) 0 then
        (day / 31 + 2, day - daysBefore.getD (day / 31 + 1) 0 + 1)
      else (day / 31 + 1, day - daysBefore.getD (day / 31) 0 + 1)) = (m, dd) ∧
      1 ≤ m ∧ m ≤ 12 ∧ 1 ≤ dd ∧ dd ≤ daysBefore.getD m 0 - daysBefore.getD (m - 1) 0 ∧
      daysBefore.getD (m - 1) 0 + (dd - 1) = day ∧ (3 ≤ m ↔ 59 ≤ day) ∧ (m = 2 → dd ≤ 28) := by
  obtain ⟨q, hq⟩ : ∃ q, q = day / 31 := ⟨_, rfl⟩
  have hq1 : q ≤ 11 := by omega
  rw [← hq]
  interval_cases q <;> simp only [daysBefore, List.getD_cons_succ, List.getD_cons_zero] <;>
    split <;> refine ⟨_, _, rfl, ?_⟩ <;>
    simp only [daysBefore, List.getD_cons_succ, List.getD_cons_zero, Nat.add_sub_cancel] <;>
    omega

theorem monthDay_inverse (year : Int) (yd : Nat)
    (h : yd < 365 + (if isLeap year then 1 else 0)) :
    1 ≤ (monthDay year yd).1 ∧ (monthDay year yd).1 ≤ 12 ∧ 1 ≤ (monthDay year yd).2 ∧
    (monthDay year yd).2 ≤ daysIn (monthDay year yd).1 year ∧
    daysBefore.getD ((monthDay year yd).1 - 1) 0
      + (if isLeap year && decide ((monthDay year yd).1 ≥ 3) then 1 else 0)
      + ((monthDay year yd).2 - 1) = yd := by
  unfold monthDay daysIn
  cases hl : isLeap year
  · rw [hl] at h
    simp only [Bool.false_and, Bool.false_eq_true, if_false, Bool.and_false] at h ⊢
    obtain ⟨m, dd, he, h1, h2, h3, h4, h5, _, _⟩ := monthDay_core yd (by omega)
    rw [he]
    simp only
    omega
  · rw [hl] at h
    simp only [if_true] at h
    by_cases h59 : yd = 59
    · subst h59
      simp [daysBefore]
    · have hne : (true && yd == 31 + 29 - 1) = false := by simpa using h59
      rw [hne]
      simp only [Bool.false_eq_true, if_false, Bool.true_and, decide_eq_true_eq]
      by_cases hgt : yd > 31 + 29 - 1
      · rw [if_pos hgt]
        obtain ⟨m, dd, he, h1, h2, h3, h4, h5, h6, _⟩ := monthDay_core (yd - 1) (by omega)
        rw [he]
        have hm3 : 3 ≤ m := h6.2 (by omega)
        have hm2 : (m == 2) = false := by
          simp only [beq_eq_false_iff_ne, ne_eq]
          omega
        simp only [hm2, Bool.false_and, Bool.false_eq_true, if_false, ge_iff_le, hm3, if_true]
        omega
      · rw [if_neg hgt]
        obtain ⟨m, dd, he, h1, h2, h3, h4, h5, h6, h7⟩ := monthDay_core yd (by omega)
        rw [he]
        have hm3 : ¬ 3 ≤ m := fun h3m => by
          have := h6.1 h3m
          omega
        simp only [ge_iff_le, hm3, if_false]
        by_cases hm2 : m = 2
        · subst hm2
          have := h7 rfl
          simp [daysBefore] at h4 h5 ⊢
          omega
        · have hm2b : (m == 2) = false := by simpa using hm2
          simp only [hm2b, Bool.false_and, Bool.false_eq_true, if_false]
          omega

/-! ## Parsing a formatted timestamp -/

theorem digitVal_digit (n : Nat) : digitVal (digit n) = n % 10 := by
  unfold digit
  have h := Nat.mod_lt n (by decide : 10 > 0)
  interval_cases n % 10 <;> decide

theorem parseYear_digits (y : Nat) (hy : y ≤ 9999) (rest : GoString) :
    parseYear (digit (y / 1000) :: digit (y / 100) :: digit (y / 10) :: digit y :: rest)
      = some ((y : Int), rest) := by
  unfold parseYear
  simp only [(digit_props _).2.2.2, Bool.and_self, if_true, digitVal_digit, Option.some.injEq,
    Prod.mk.injEq, and_true]
  have : y / 1000 % 10 * 1000 + y / 100 % 10 * 100 + y / 10 % 10 * 10 + y % 10 = y := by omega
  rw [this]

theorem getnum_digits (n : Nat) (hn : n < 100) (fixed : Bool) (rest : GoString) :
    getnum (digit (n / 10) :: digit n :: rest) fixed = some (n, rest) := by
  unfold getnum
  simp only [(digit_props _).2.2.2, Bool.not_true, Bool.false_eq_true, if_false, if_true,
    digitVal_digit, Option.some.injEq, Prod.mk.injEq, and_true]
  omega

theorem parseRFC3339_formatted (y m d hh mm ss : Nat) (hy : y ≤ 9999) (hm1 : 1 ≤ m)
    (hm2 : m ≤ 12) (hd0 : d < 100) (hd1 : 1 ≤ d) (hd2 : d ≤ daysIn m (y : Int)) (hh2 : hh < 24)
    (hmm : mm < 60) (hss : ss < 60) :
    parseRFC3339 [digit (y / 1000), digit (y / 100), digit (y / 10), digit y, '-',
      digit (m / 10), digit m, '-', digit (d / 10), digit d, 'T', digit (hh / 10), digit hh,
      ':', digit (mm / 10), digit mm, ':', digit (ss / 10), digit ss, 'Z']
      = some (dateUnix (y : Int) m d hh mm ss) := by
  have hdate : parseDate [digit (y / 1000), digit (y / 100), digit (y / 10), digit y, '-',
      digit (m / 10), digit m, '-', digit (d / 10), digit d, 'T', digit (hh / 10), digit hh,
      ':', digit (mm / 10), digit mm, ':', digit (ss / 10), digit ss, 'Z']
      = some ((y : Int), m, d, ['T', digit (hh / 10), digit hh,
      ':', digit (mm / 10), digit mm, ':', digit (ss / 10), digit ss, 'Z']) := by
    unfold parseDate
    rw [parseYear_digits y hy]
    simp only [Option.bind_eq_bind, Option.some_bind, skipChar, if_true]
    rw [getnum_digits m (by omega)]
    have hreq : require (decide (0 < m ∧ m ≤ 12)) = some () := by
      simp [require, hm2]
      omega
    simp only [Option.some_bind, hreq, skipChar, if_true]
    rw [getnum_digits d hd0]
    rfl
  have hclock : parseClock [digit (hh / 10), digit hh,
      ':', digit (mm / 10), digit mm, ':', digit (ss / 10), digit ss, 'Z']
      = some (hh, mm, ss, ['Z']) := by
    unfold parseClock
    rw [getnum_digits hh (by omega)]
    have h1 : require (decide (hh < 24)) = some () := by simp [require, hh2]
    have h2 : require (decide (mm < 60)) = some () := by simp [require, hmm]
    have h3 : require (decide (ss < 60)) = some () := by simp [require, hss]
    simp only [Option.bind_eq_bind, Option.some_bind, h1, skipChar, if_true]
    rw [getnum_digits mm (by omega)]
    simp only [Option.some_bind, h2, skipChar, if_true]
    rw [getnum_digits ss (by omega)]
    simp only [Option.some_bind, h3]
    rfl
  unfold parseRFC3339
  rw [hdate]
  simp only [Option.bind_eq_bind, Option.some_bind, skipChar, if_true]
  rw [hclock]
  have hz : parseZone ['Z'] = some (0, []) := rfl
  have h4 : require (decide (1 ≤ d ∧ d ≤ daysIn m (y : Int))) = some () := by
    simp [require, hd1, hd2]
  have h5 : require ([] : GoString).isEmpty = some () := rfl
  simp only [Option.some_bind, hz, h4, h5, sub_zero]
  rfl

theorem formatRFC3339_eq (ts : Int) (h : fourDigitYear ts) :
    formatRFC3339 (unixAbs ts) =
      [digit ((absDate (unixAbs ts)).1.natAbs / 1000), digit ((absDate (unixAbs ts)).1.natAbs / 100),
        digit ((absDate (unixAbs ts)).1.natAbs / 10), digit (absDate (unixAbs ts)).1.natAbs, '-',
        digit ((absDate (unixAbs ts)).2.1 / 10), digit (absDate (unixAbs ts)).2.1, '-',
        digit ((absDate (unixAbs ts)).2.2 / 10), digit (absDate (unixAbs ts)).2.2, 'T',
        digit (unixAbs ts % 86400 / 3600 / 10), digit (unixAbs ts % 86400 / 3600), ':',
        digit ((unixAbs ts % 86400 - unixAbs ts % 86400 / 3600 * 3600) / 60 / 10),
        digit ((unixAbs ts % 86400 - unixAbs ts % 86400 / 3600 * 3600) / 60), ':',
        digit ((unixAbs ts % 86400 - unixAbs ts % 86400 / 3600 * 3600
          - (unixAbs ts % 86400 - unixAbs ts % 86400 / 3600 * 3600) / 60 * 60) / 10),
        digit (unixAbs ts % 86400 - unixAbs ts % 86400 / 3600 * 3600
          - (unixAbs ts % 86400 - unixAbs ts % 86400 / 3600 * 3600) / 60 * 60), 'Z'] := by
  obtain ⟨ha1, ha2⟩ := unixAbs_of_fourDigitYear ts h
  obtain ⟨hy1, hy2⟩ := absDate_year_range (unixAbs ts) ha1 ha2
  obtain ⟨d, hd, hmd⟩ := absDate_snd (unixAbs ts)
  obtain ⟨hm1, hm2⟩ := monthDay_lt (absDate (unixAbs ts)).1 d hd
  rw [← hmd] at hm1 hm2
  unfold formatRFC3339
  simp only
  rw [appendInt_four _ hy1 hy2, appendInt_two _ hm1, appendInt_two _ hm2,
    appendInt_two _ (by omega), appendInt_two _ (by omega), appendInt_two _ (by omega)]
  rfl

theorem parse_format (ts : Int) (h : fourDigitYear ts) :
    parseRFC3339 (formatRFC3339 (unixAbs ts)) = some ts := by
  rw [formatRFC3339_eq ts h]
  obtain ⟨ha1, ha2⟩ := unixAbs_of_fourDigitYear ts h
  obtain ⟨hy1, hy2⟩ := absDate_year_range (unixAbs ts) ha1 ha2
  obtain ⟨yd, hmd, hinv, hlt⟩ := absDate_inverse (unixAbs ts)
  obtain ⟨d0, hd0, hmd0⟩ := absDate_snd (unixAbs ts)
  obtain ⟨_, hdlt⟩ := monthDay_lt (absDate (unixAbs ts)).1 d0 hd0
  rw [← hmd0] at hdlt
  obtain ⟨m1, m2, m3, m4, m5⟩ := monthDay_inverse (absDate (unixAbs ts)).1 yd hlt
  rw [← hmd] at m1 m2 m3 m4 m5
  obtain ⟨c1, c2, c3, c4⟩ := clock_inverse (unixAbs ts)
  have habs : ((unixAbs ts : Nat) : Int) = ts + 9223372028715321600 := by
    unfold fourDigitYear at h
    unfold unixAbs unixToAbsolute
    omega
  obtain ⟨y, hy⟩ : ∃ y : Nat, (absDate (unixAbs ts)).1 = (y : Int) :=
    ⟨(absDate (unixAbs ts)).1.toNat, by omega⟩
  rw [hy] at m4 m5 hinv hy2
  rw [hy, Int.natAbs_ofNat]
  rw [parseRFC3339_formatted y _ _ _ _ _ (by omega) m1 m2 hdlt m3 m4 c1 c2 c3]
  congr 1
  unfold dateUnix unixToAbsolute
  simp only
  omega

/-! ## Round trip of the timestamp codec -/

theorem at0_Timestamp2String (ts : Int) (h : fourDigitYear ts) :
    at0 (Timestamp2String ts) = formatRFC3339 (unixAbs ts) := by
  obtain ⟨y, m, d, hh, mm, ss, hf⟩ := formatRFC3339_shape ts h
  unfold Timestamp2String
  rw [Split_of_not_mem]
  · rfl
  · rw [hf]
    simp [(digit_props _).2.2.1]

theorem dropLast_formatRFC3339 (ts : Int) (h : fourDigitYear ts) :
    (formatRFC3339 (unixAbs ts)).dropLast ++ ['Z'] = formatRFC3339 (unixAbs ts) := by
  obtain ⟨y, m, d, hh, mm, ss, hf⟩ := formatRFC3339_shape ts h
  rw [hf]
  rfl

/-- C11 (as amended). For every epoch-seconds value t in the years 0000 to 9999, parsing the
text that the formatter produces for t, with its final character "Z" removed (as `main` does
before printing), gives t back. -/
theorem ParseTimestamp_of_stripped_format (t : Int) (h : fourDigitYear t) :
    ParseTimestamp (at0 (Timestamp2String t)).dropLast = .ok t := by
  unfold ParseTimestamp
  rw [at0_Timestamp2String t h, dropLast_formatRFC3339 t h, parse_format t h]

theorem ParseTimestamp_of_stripped_format_witness :
    ParseTimestamp (at0 (Timestamp2String 1638334800)).dropLast = .ok 1638334800 :=
  ParseTimestamp_of_stripped_format 1638334800 (by unfold fourDigitYear; decide)

/-- C11 (counterexample). For t = 1638334800 the formatter gives "2021-12-01T05:00:00Z";
`ParseTimestamp` appends a second "Z" and the parse fails, so the run ends in `log.Fatal`
and t is not returned. For t = 253402300800 the text has a five-digit year, which the parser
rejects even after the final "Z" is removed. -/
theorem ParseTimestamp_of_format_fails :
    at0 (Timestamp2String 1638334800) = "2021-12-01T05:00:00Z".toList ∧
    ParseTimestamp (at0 (Timestamp2String 1638334800)) = .error .fatal ∧
    at0 (Timestamp2String 253402300800) = "10000-01-01T00:00:00Z".toList ∧
    ParseTimestamp (at0 (Timestamp2String 253402300800)).dropLast = .error .fatal :=
  ⟨by decide, rfl, by decide, rfl⟩

/-! ## Calendar order of the unique days -/

theorem absDate_congr (a b : Nat) (h : a / 86400 = b / 86400) : absDate a = absDate b := by
  unfold absDate
  simp only [h]

theorem collect_sublist (l : List GoString) : ∀ u : List GoString,
    ∃ sub, sub.Sublist l ∧
      l.foldl (fun (u : List GoString) x => if u.contains x then u else u ++ [x]) u
        = u ++ sub := by
  induction l with
  | nil => intro u; exact ⟨[], List.Sublist.refl _, by simp⟩
  | cons x l ih =>
    intro u
    rw [List.foldl_cons]
    by_cases hc : u.contains x = true
    · rw [if_pos hc]
      obtain ⟨sub, hs, he⟩ := ih u
      exact ⟨sub, hs.cons x, he⟩
    · rw [if_neg hc]
      obtain ⟨sub, hs, he⟩ := ih (u ++ [x])
      exact ⟨x :: sub, hs.cons₂ x, by rw [he]; simp⟩

/-! ## Day texts of any year -/

theorem digitsRev_mem (f : Nat) : ∀ (n : Nat) (c : Char), c ∈ digitsRev f n → ∃ k, c = digit k := by
  induction f with
  | zero => intro n c h; simp [digitsRev] at h
  | succ f ih =>
    intro n c h
    unfold digitsRev at h
    rcases List.mem_cons.1 h with h | h
    · exact ⟨n, h⟩
    · split at h
      · simp at h
      · exact ih _ _ h

theorem digitsRev_value (f : Nat) : ∀ n : Nat, n < f →
    Nat.ofDigits 10 ((digitsRev f n).map digitVal) = n := by
  induction f with
  | zero => intro n h; omega
  | succ f ih =>
    intro n h
    unfold digitsRev
    rw [List.map_cons, Nat.ofDigits_cons, digitVal_digit]
    by_cases h0 : n / 10 = 0
    · rw [if_pos h0]
      simp
      omega
    · rw [if_neg h0, ih (n / 10) (by omega)]
      omega

theorem decimalValue_decimalDigits (n : Nat) : decimalValue (decimalDigits n) = n := by
  unfold decimalValue decimalDigits
  rw [List.map_reverse, List.reverse_reverse]
  exact digitsRev_value _ _ (by omega)

theorem decimalDigits_mem (n : Nat) (c : Char) (h : c ∈ decimalDigits n) : ∃ k, c = digit k :=
  digitsRev_mem _ _ _ (List.mem_reverse.1 h)

theorem decimalDigits_ne_nil (n : Nat) : decimalDigits n ≠ [] := by
  unfold decimalDigits digitsRev
  simp

theorem decimalValue_replicate (k : Nat) (s : GoString) :
    decimalValue (List.replicate k '0' ++ s) = decimalValue s := by
  induction k with
  | zero => rfl
  | succ k ih =>
    rw [List.replicate_succ, List.cons_append, decimalValue_cons, ih]
    have : digitVal '0' = 0 := by decide
    rw [this]
    simp

theorem decimalValue_two (n : Nat) (h : n < 100) :
    decimalValue [digit (n / 10), digit n] = n := by
  rw [decimalValue_cons, decimalValue_cons, digitVal_digit, digitVal_digit]
  simp [decimalValue]
  omega

theorem appendInt_year (y : Int) :
    ∃ ds : GoString, appendInt y 4 = (if y < 0 then ['-'] else []) ++ ds ∧ ds ≠ [] ∧
      (∀ c ∈ ds, ∃ k, c = digit k) ∧ decimalValue ds = y.natAbs := by
  unfold appendInt
  simp only
  rw [if_neg (fun hh => absurd hh.1 (by decide))]
  by_cases h : y.natAbs < 10000
  · rw [if_pos ⟨trivial, h⟩]
    refine ⟨_, rfl, by simp, ?_, ?_⟩
    · intro c hc
      simp only [List.mem_cons, List.mem_singleton, List.not_mem_nil, or_false] at hc
      rcases hc with h | h | h | h <;> exact ⟨_, h⟩
    · rw [decimalValue_cons, decimalValue_cons, decimalValue_cons, decimalValue_cons]
      simp only [digitVal_digit, decimalValue, List.map_nil, List.reverse_nil, Nat.ofDigits_nil,
        List.length_cons, List.length_nil]
      omega
  · rw [if_neg (fun hh => h hh.2)]
    refine ⟨List.replicate (4 - (decimalDigits y.natAbs).length) '0' ++ decimalDigits y.natAbs,
      by rw [List.append_assoc], ?_, ?_, ?_⟩
    · simp [decimalDigits_ne_nil]
    · intro c hc
      rcases List.mem_append.1 hc with h1 | h1
      · exact ⟨0, (List.eq_of_mem_replicate h1).trans (by decide)⟩
      · exact decimalDigits_mem _ _ h1
    · rw [decimalValue_replicate, decimalValue_decimalDigits]

theorem absDate_lt_100 (abs : Nat) : (absDate abs).2.1 < 100 ∧ (absDate abs).2.2 < 100 := by
  obtain ⟨d, hd, hmd⟩ := absDate_snd abs
  rw [hmd]
  exact monthDay_lt _ d hd

theorem formatRFC3339_dayText (abs : Nat) :
    ∃ hh mm ss : Nat, formatRFC3339 abs = dayText (absDate abs) ++
      'T' :: [digit (hh / 10), digit hh, ':', digit (mm / 10), digit mm, ':', digit (ss / 10),
        digit ss, 'Z'] := by
  unfold formatRFC3339 dayText
  simp only
  rw [appendInt_two (abs % 86400 / 3600) (by omega),
    appendInt_two ((abs % 86400 - abs % 86400 / 3600 * 3600) / 60) (by omega),
    appendInt_two (abs % 86400 - abs % 86400 / 3600 * 3600
      - (abs % 86400 - abs % 86400 / 3600 * 3600) / 60 * 60) (by omega)]
  refine ⟨abs % 86400 / 3600, (abs % 86400 - abs % 86400 / 3600 * 3600) / 60,
    abs % 86400 - abs % 86400 / 3600 * 3600
      - (abs % 86400 - abs % 86400 / 3600 * 3600) / 60 * 60, ?_⟩
  simp only [List.append_assoc, List.cons_append, List.nil_append]

theorem dayText_eq (ymd : Int × Nat × Nat) (hm : ymd.2.1 < 100) (hd : ymd.2.2 < 100) :
    ∃ ds : GoString, ds ≠ [] ∧ (∀ c ∈ ds, ∃ k, c = digit k) ∧ decimalValue ds = ymd.1.natAbs ∧
      dayText ymd = (if ymd.1 < 0 then ['-'] else []) ++ ds ++
        '-' :: ([digit (ymd.2.1 / 10), digit ymd.2.1] ++
          '-' :: [digit (ymd.2.2 / 10), digit ymd.2.2]) := by
  obtain ⟨ds, h1, h2, h3, h4⟩ := appendInt_year ymd.1
  refine ⟨ds, h2, h3, h4, ?_⟩
  unfold dayText
  rw [h1, appendInt_two _ hm, appendInt_two _ hd]
  simp only [List.append_assoc, List.cons_append, List.nil_append]

theorem digit_ne (k : Nat) : digit k ≠ '-' ∧ digit k ≠ 'T' ∧ digit k ≠ '+' ∧ digit k ≠ ':' ∧
    digit k ≠ 'Z' ∧ (digit k).isDigit = true := by
  have h := digit_cases k
  generalize digit k = c at h
  simp only [List.mem_cons, List.mem_singleton, List.not_mem_nil, or_false] at h
  rcases h with h | h | h | h | h | h | h | h | h | h <;> subst h <;> decide

theorem dayText_chars (ymd : Int × Nat × Nat) (hm : ymd.2.1 < 100) (hd : ymd.2.2 < 100)
    (c : Char) (hc : c ∈ dayText ymd) : c = '-' ∨ ∃ k, c = digit k := by
  obtain ⟨ds, _, h2, _, h4⟩ := dayText_eq ymd hm hd
  rw [h4] at hc
  simp only [List.mem_append, List.mem_cons, List.mem_singleton, List.not_mem_nil,
    or_false] at hc
  rcases hc with (hc | hc) | hc | (hc | hc) | hc | hc | hc
  · split at hc
    · left
      simpa using hc
    · simp at hc
  · exact Or.inr (h2 c hc)
  · exact Or.inl hc
  · exact Or.inr ⟨_, hc⟩
  · exact Or.inr ⟨_, hc⟩
  · exact Or.inl hc
  · exact Or.inr ⟨_, hc⟩
  · exact Or.inr ⟨_, hc⟩

theorem dayOf_eq_dayText (ts : Int) : dayOf ts = dayText (absDate (unixAbs ts)) := by
  obtain ⟨hm, hd⟩ := absDate_lt_100 (unixAbs ts)
  obtain ⟨hh, mm, ss, hf⟩ := formatRFC3339_dayText (unixAbs ts)
  have hT : 'T' ∉ dayText (absDate (unixAbs ts)) := fun h => by
    rcases dayText_chars _ hm hd _ h with h1 | ⟨k, h1⟩
    · revert h1
      decide
    · exact (digit_ne k).2.1 h1.symm
  have hP : '+' ∉ formatRFC3339 (unixAbs ts) := fun h => by
    rw [hf] at h
    rcases List.mem_append.1 h with h | h
    · rcases dayText_chars _ hm hd _ h with h1 | ⟨k, h1⟩
      · revert h1
        decide
      · exact (digit_ne k).2.2.1 h1.symm
    · simp only [List.mem_cons, List.mem_singleton, List.not_mem_nil, or_false] at h
      rcases h with h | h | h | h | h | h | h | h | h | h
      · revert h; decide
      · exact (digit_ne _).2.2.1 h.symm
      · exact (digit_ne _).2.2.1 h.symm
      · revert h; decide
      · exact (digit_ne _).2.2.1 h.symm
      · exact (digit_ne _).2.2.1 h.symm
      · revert h; decide
      · exact (digit_ne _).2.2.1 h.symm
      · exact (digit_ne _).2.2.1 h.symm
      · revert h; decide
  unfold dayOf Timestamp2String
  rw [Split_of_not_mem _ '+' hP]
  have h0 : at0 [formatRFC3339 (unixAbs ts)] = formatRFC3339 (unixAbs ts) := rfl
  rw [h0, hf, Split_append_sep _ _ 'T' hT]
  rfl

theorem parseDay_dayText (ymd : Int × Nat × Nat) (hm : ymd.2.1 < 100) (hd : ymd.2.2 < 100) :
    parseDay (dayText ymd) = some ymd := by
  obtain ⟨ds, h1, h2, h3, h4⟩ := dayText_eq ymd hm hd
  obtain ⟨y, m, d⟩ := ymd
  simp only at hm hd h3 h4
  have hds : '-' ∉ ds := fun h => by
    obtain ⟨k, hk⟩ := h2 _ h
    exact (digit_ne k).1 hk.symm
  have hmm : '-' ∉ [digit (m / 10), digit m] := fun h => by
    simp only [List.mem_cons, List.mem_singleton, List.not_mem_nil, or_false] at h
    rcases h with h | h <;> exact (digit_ne _).1 h.symm
  have hdd : '-' ∉ [digit (d / 10), digit d] := fun h => by
    simp only [List.mem_cons, List.mem_singleton, List.not_mem_nil, or_false] at h
    rcases h with h | h <;> exact (digit_ne _).1 h.symm
  have hsplit : Split (ds ++ '-' :: ([digit (m / 10), digit m] ++
      '-' :: [digit (d / 10), digit d])) '-'
      = [ds, [digit (m / 10), digit m], [digit (d / 10), digit d]] := by
    rw [Split_append_sep _ _ _ hds, Split_append_sep _ _ _ hmm, Split_of_not_mem _ _ hdd]
  have hall : ds.all Char.isDigit = true := by
    rw [List.all_eq_true]
    intro c hc
    obtain ⟨k, hk⟩ := h2 c hc
    rw [hk]
    exact (digit_ne k).2.2.2.2.2
  have hemp : ds.isEmpty = false := by
    cases ds with
    | nil => exact absurd rfl h1
    | cons _ _ => rfl
  have hcond : (!ds.isEmpty && ds.all Char.isDigit && [digit (m / 10), digit m].length == 2 &&
      [digit (m / 10), digit m].all Char.isDigit && [digit (d / 10), digit d].length == 2 &&
      [digit (d / 10), digit d].all Char.isDigit) = true := by
    simp [hemp, hall, (digit_ne _).2.2.2.2.2]
  rw [h4]
  unfold parseDay
  by_cases hy : y < 0
  · have hhead : (((if y < 0 then ['-'] else []) ++ ds ++ '-' :: ([digit (m / 10), digit m] ++
        '-' :: [digit (d / 10), digit d])).head? == some '-') = true := by
      rw [if_pos hy]
      rfl
    simp only [hhead, if_true]
    have htail : ((if y < 0 then ['-'] else []) ++ ds ++ '-' :: ([digit (m / 10), digit m] ++
        '-' :: [digit (d / 10), digit d])).tail
        = ds ++ '-' :: ([digit (m / 10), digit m] ++ '-' :: [digit (d / 10), digit d]) := by
      rw [if_pos hy]
      rfl
    rw [htail, hsplit]
    simp only [hcond, if_true, h3, decimalValue_two m hm, decimalValue_two d hd]
    congr 2
    omega
  · have hself : (if y < 0 then ['-'] else []) ++ ds ++ '-' :: ([digit (m / 10), digit m] ++
        '-' :: [digit (d / 10), digit d])
        = ds ++ '-' :: ([digit (m / 10), digit m] ++ '-' :: [digit (d / 10), digit d]) := by
      rw [if_neg hy]
      rfl
    rw [hself]
    have hhead : ((ds ++ '-' :: ([digit (m / 10), digit m] ++
        '-' :: [digit (d / 10), digit d])).head? == some '-') = false := by
      cases ds with
      | nil => exact absurd rfl h1
      | cons c cs =>
        obtain ⟨k, hk⟩ := h2 c (List.mem_cons_self _ _)
        have := (digit_ne k).1
        rw [← hk] at this
        simpa using this
    simp only [hhead, Bool.false_eq_true, if_false]
    rw [hsplit]
    simp only [hcond, if_true, h3, decimalValue_two m hm, decimalValue_two d hd]
    congr 2
    omega

theorem parseDay_dayOf (ts : Int) : parseDay (dayOf ts) = some (absDate (unixAbs ts)) := by
  obtain ⟨hm, hd⟩ := absDate_lt_100 (unixAbs ts)
  rw [dayOf_eq_dayText, parseDay_dayText _ hm hd]

/-! ## The date is monotone in the day number -/

theorem isLeap_iff (year : Int) :
    isLeap year = true ↔ year % 4 = 0 ∧ (year % 100 ≠ 0 ∨ year % 400 = 0) := by
  simp [isLeap]

theorem daysSinceEpoch_closed (Y : Nat) :
    daysSinceEpoch ((Y : Int) + absoluteZeroYear) + Y / 100 = 365 * Y + Y / 4 + Y / 400 := by
  unfold daysSinceEpoch absoluteZeroYear
  simp only
  have h1 : ((Y : Int) + -292277022399 - -292277022399).toNat = Y := by omega
  rw [h1]
  generalize hn : Y / 400 = n
  generalize hr1 : Y - 400 * n = r1
  have hr1a : r1 < 400 := by omega
  have hr1b : Y = 400 * n + r1 := by omega
  generalize hc : r1 / 100 = c
  generalize hr2 : r1 - 100 * c = r2
  have hr2a : r2 < 100 := by omega
  have hr2b : r1 = 100 * c + r2 := by omega
  have hca : c ≤ 3 := by omega
  generalize hf : r2 / 4 = f
  generalize hg : r2 - 4 * f = g
  have hga : g < 4 := by omega
  have hgb : r2 = 4 * f + g := by omega
  have hfa : f ≤ 24 := by omega
  have e100 : Y / 100 = 4 * n + c := by omega
  have e4 : Y / 4 = 100 * n + 25 * c + f := by omega
  rw [e100, e4]
  omega

theorem leap_step (Y A B : Nat) (c1 : A + Y / 100 = 365 * Y + Y / 4 + Y / 400)
    (c2 : B + (Y + 1) / 100 = 365 * (Y + 1) + (Y + 1) / 4 + (Y + 1) / 400) :
    (((Y : Int) + -292277022399) % 4 = 0 ∧
      (((Y : Int) + -292277022399) % 100 ≠ 0 ∨ ((Y : Int) + -292277022399) % 400 = 0) →
      B = A + 365 + 1) ∧
    (¬ (((Y : Int) + -292277022399) % 4 = 0 ∧
      (((Y : Int) + -292277022399) % 100 ≠ 0 ∨ ((Y : Int) + -292277022399) % 400 = 0)) →
      B = A + 365 + 0) := by
  have e4 : ((Y : Int) + -292277022399) % 4 = 0 ↔ (Y + 1) % 4 = 0 := by omega
  have e100 : ((Y : Int) + -292277022399) % 100 = 0 ↔ (Y + 1) % 100 = 0 := by omega
  have e400 : ((Y : Int) + -292277022399) % 400 = 0 ↔ (Y + 1) % 400 = 0 := by omega
  simp only [ne_eq, e4, e100, e400]
  have d4 : (Y + 1) / 4 = Y / 4 + (if (Y + 1) % 4 = 0 then 1 else 0) := by
    split <;> omega
  have d100 : (Y + 1) / 100 = Y / 100 + (if (Y + 1) % 100 = 0 then 1 else 0) := by
    split <;> omega
  have d400 : (Y + 1) / 400 = Y / 400 + (if (Y + 1) % 400 = 0 then 1 else 0) := by
    split <;> omega
  have i1 : (Y + 1) % 400 = 0 → (Y + 1) % 100 = 0 := by omega
  have i2 : (Y + 1) % 100 = 0 → (Y + 1) % 4 = 0 := by omega
  rw [d4, d100, d400] at c2
  clear d4 d100 d400 e4 e100 e400
  generalize Y / 4 = q4 at c1 c2
  generalize Y / 100 = q100 at c1 c2
  generalize Y / 400 = q400 at c1 c2
  by_cases h4 : (Y + 1) % 4 = 0 <;> by_cases h100 : (Y + 1) % 100 = 0 <;>
    by_cases h400 : (Y + 1) % 400 = 0 <;>
    simp only [h4, h100, h400, if_true, if_false, true_and, false_and, not_true_eq_false,
      not_false_eq_true, or_true, or_false, false_or, true_or, ne_eq, forall_const,
      false_implies, true_implies, and_true, true_and, not_not] at c2 i1 i2 ⊢ <;>
    omega

theorem daysSinceEpoch_succ (Y : Nat) :
    daysSinceEpoch ((Y : Int) + 1 + absoluteZeroYear)
      = daysSinceEpoch ((Y : Int) + absoluteZeroYear) + 365 +
          (if isLeap ((Y : Int) + absoluteZeroYear) then 1 else 0) := by
  have hl := isLeap_iff ((Y : Int) + absoluteZeroYear)
  have c1 := daysSinceEpoch_closed Y
  have c2 := daysSinceEpoch_closed (Y + 1)
  rw [Nat.cast_succ] at c2
  obtain ⟨s1, s2⟩ := leap_step Y _ _ c1 c2
  by_cases h : isLeap ((Y : Int) + absoluteZeroYear) = true
  · rw [if_pos h]
    exact s1 (hl.1 h)
  · rw [if_neg h]
    exact s2 (fun hh => h (hl.2 hh))

theorem daysSinceEpoch_lt (Y1 Y2 : Nat) (h : Y1 < Y2) :
    daysSinceEpoch ((Y1 : Int) + absoluteZeroYear) + 365 +
        (if isLeap ((Y1 : Int) + absoluteZeroYear) then 1 else 0)
      ≤ daysSinceEpoch ((Y2 : Int) + absoluteZeroYear) := by
  induction Y2 with
  | zero => omega
  | succ k ih =>
    have hs := daysSinceEpoch_succ k
    rw [Nat.cast_succ, hs]
    rcases Nat.lt_succ_iff_lt_or_eq.1 h with h1 | h1
    · have := ih h1
      omega
    · subst h1
      exact le_refl _

theorem absDate_year_nat (abs : Nat) : ∃ Y : Nat, (absDate abs).1 = (Y : Int) + absoluteZeroYear := by
  unfold absDate
  exact ⟨_, rfl⟩

theorem daysBefore_mono : ∀ i : Fin 13, ∀ j : Fin 13, i ≤ j →
    daysBefore.getD i.val 0 ≤ daysBefore.getD j.val 0 := by
  decide

theorem month_span (year : Int) (m d : Nat) (a1 : 1 ≤ m) (a2 : m ≤ 12) (a3 : 1 ≤ d)
    (a4 : d ≤ daysIn m year) :
    daysBefore.getD (m - 1) 0 + (if 3 ≤ m then (if isLeap year then 1 else 0) else 0)
      ≤ daysBefore.getD (m - 1) 0 + (if isLeap year && decide (m ≥ 3) then 1 else 0) + (d - 1) ∧
    daysBefore.getD (m - 1) 0 + (if isLeap year && decide (m ≥ 3) then 1 else 0) + (d - 1)
      < daysBefore.getD m 0 + (if 2 ≤ m then (if isLeap year then 1 else 0) else 0) := by
  have hmono := daysBefore_mono ⟨m - 1, by omega⟩ ⟨m, by omega⟩ (by
    rw [Fin.le_def]
    simp)
  simp only at hmono
  unfold daysIn at a4
  by_cases h2 : m = 2
  · subst h2
    cases hl : isLeap year <;> rw [hl] at a4 <;> simp [daysBefore] at a4 ⊢ <;> omega
  · have hm2 : (m == 2) = false := by simpa using h2
    rw [hm2] at a4
    simp only [Bool.false_and, Bool.false_eq_true, if_false] at a4
    generalize daysBefore.getD (m - 1) 0 = A at hmono a4 ⊢
    generalize daysBefore.getD m 0 = B at hmono a4 ⊢
    by_cases h3 : 3 ≤ m
    · have h2m : 2 ≤ m := by omega
      cases hl : isLeap year <;> simp [h3, h2m] <;> omega
    · have h2m : ¬ 2 ≤ m := by omega
      cases hl : isLeap year <;> simp [h3, h2m] <;> omega

theorem month_start_mono (year : Int) (m1 m2 : Nat) (h : m2 < m1) (h12 : m1 ≤ 12) :
    daysBefore.getD m2 0 + (if 2 ≤ m2 then (if isLeap year then 1 else 0) else 0)
      ≤ daysBefore.getD (m1 - 1) 0 + (if 3 ≤ m1 then (if isLeap year then 1 else 0) else 0) := by
  have hmono := daysBefore_mono ⟨m2, by omega⟩ ⟨m1 - 1, by omega⟩ (by
    rw [Fin.le_def]
    simp only
    omega)
  simp only at hmono
  by_cases h2 : 2 ≤ m2
  · rw [if_pos h2, if_pos (show 3 ≤ m1 by omega)]
    omega
  · rw [if_neg h2]
    omega

theorem month_day_order (year : Int) (m1 d1 m2 d2 : Nat) (a1 : 1 ≤ m1) (a2 : m1 ≤ 12)
    (a3 : 1 ≤ d1) (a4 : d1 ≤ daysIn m1 year) (b1 : 1 ≤ m2) (b2 : m2 ≤ 12) (b3 : 1 ≤ d2)
    (b4 : d2 ≤ daysIn m2 year)
    (hlt : daysBefore.getD (m1 - 1) 0 + (if isLeap year && decide (m1 ≥ 3) then 1 else 0)
        + (d1 - 1)
      < daysBefore.getD (m2 - 1) 0 + (if isLeap year && decide (m2 ≥ 3) then 1 else 0)
        + (d2 - 1)) :
    m1 < m2 ∨ (m1 = m2 ∧ d1 < d2) := by
  rcases Nat.lt_trichotomy m1 m2 with h | h | h
  · exact Or.inl h
  · right
    subst h
    exact ⟨rfl, by omega⟩
  · exfalso
    have s1 := (month_span year m1 d1 a1 a2 a3 a4).1
    have s2 := (month_span year m2 d2 b1 b2 b3 b4).2
    have s3 := month_start_mono year m1 m2 h a2
    omega

theorem absDate_lt (a b : Nat) (h : a / 86400 < b / 86400) :
    dateLt (absDate a) (absDate b) = true := by
  obtain ⟨yd1, hmd1, hinv1, hlt1⟩ := absDate_inverse a
  obtain ⟨yd2, hmd2, hinv2, hlt2⟩ := absDate_inverse b
  obtain ⟨Y1, hY1⟩ := absDate_year_nat a
  obtain ⟨Y2, hY2⟩ := absDate_year_nat b
  obtain ⟨a1, a2, a3, a4, a5⟩ := monthDay_inverse (absDate a).1 yd1 hlt1
  obtain ⟨b1, b2, b3, b4, b5⟩ := monthDay_inverse (absDate b).1 yd2 hlt2
  rw [← hmd1] at a1 a2 a3 a4 a5
  rw [← hmd2] at b1 b2 b3 b4 b5
  unfold dateLt
  rw [decide_eq_true_eq]
  rcases Nat.lt_trichotomy Y1 Y2 with hlt | heq | hgt
  · left
    rw [hY1, hY2]
    omega
  · right
    subst heq
    have hyy : (absDate a).1 = (absDate b).1 := by rw [hY1, hY2]
    refine ⟨hyy, ?_⟩
    rw [← hyy] at b4 b5 hinv2
    have hyd : yd1 < yd2 := by omega
    rw [← a5, ← b5] at hyd
    exact month_day_order (absDate a).1 _ _ _ _ a1 a2 a3 a4 b1 b2 b3 b4 hyd
  · exfalso
    have := daysSinceEpoch_lt Y2 Y1 hgt
    rw [hY1] at hinv1
    rw [hY2] at hinv2 hlt2
    omega

/-! ## Unique days of a sorted dataset -/

theorem noWrap_iff (ts : Int) (h : ts ≤ 9223372036854775807) :
    noWrap ts ↔ -9223372028715321600 ≤ ts := by
  unfold noWrap unixAbs unixToAbsolute
  omega

theorem unixAbs_of_noWrap (ts : Int) (h : noWrap ts) :
    ((unixAbs ts : Nat) : Int) = ts + 9223372028715321600 := h

theorem dateLt_asymm (a b : Int × Nat × Nat) (h : dateLt a b = true) : dateLt b a = false := by
  unfold dateLt at h ⊢
  rw [decide_eq_true_eq] at h
  rw [decide_eq_false_iff_not]
  omega

theorem dateLt_trans (a b c : Int × Nat × Nat) (h1 : dateLt a b = true)
    (h2 : dateLt b c = true) : dateLt a c = true := by
  unfold dateLt at h1 h2 ⊢
  rw [decide_eq_true_eq] at h1 h2 ⊢
  omega

theorem dayBefore_asymm (a b : GoString) (h : dayBefore a b = true) : dayBefore b a = false := by
  unfold dayBefore at h ⊢
  revert h
  cases parseDay a with
  | none =>
    intro h
    cases h
  | some x =>
    cases parseDay b with
    | none =>
      intro h
      cases h
    | some y => exact dateLt_asymm x y

theorem dayBefore_trans (a b c : GoString) (h1 : dayBefore a b = true)
    (h2 : dayBefore b c = true) : dayBefore a c = true := by
  unfold dayBefore at h1 h2 ⊢
  revert h1 h2
  cases parseDay a with
  | none =>
    intro h1
    cases h1
  | some x =>
    cases parseDay b with
    | none =>
      intro h1
      cases h1
    | some y =>
      cases parseDay c with
      | none =>
        intro _ h2
        cases h2
      | some z => exact dateLt_trans x y z

theorem dayBefore_examples :
    dayBefore "-0001-12-31".toList "0000-01-01".toList = true ∧
    dayBefore "9999-12-31".toList "10000-01-01".toList = true ∧
    dayBefore "10000-01-01".toList "9999-12-31".toList = false ∧
    dayBefore "-292277022399-01-01".toList "-0001-12-31".toList = true ∧
    dayBefore "2021-12-01".toList "2021-12-01".toList = false := by
  decide

theorem dayOf_order (t1 t2 : Int) (h1 : noWrap t1) (h2 : noWrap t2) (h : t1 ≤ t2) :
    dayOf t1 = dayOf t2 ∨ dayBefore (dayOf t1) (dayOf t2) = true := by
  have e1 := unixAbs_of_noWrap t1 h1
  have e2 := unixAbs_of_noWrap t2 h2
  have hle : unixAbs t1 / 86400 ≤ unixAbs t2 / 86400 := by omega
  rcases Nat.eq_or_lt_of_le hle with heq | hlt
  · left
    rw [dayOf_eq_dayText, dayOf_eq_dayText, absDate_congr _ _ heq]
  · right
    unfold dayBefore
    rw [parseDay_dayOf, parseDay_dayOf]
    exact absDate_lt _ _ hlt

/-- C18 (as amended). For every dataset none of whose timestamps wraps around in `time.Unix`
(among `int64` values these are the timestamps from -9223372028715321600 on), after
`SortByTimestamp` has been called, `GetUniqueDays` returns the days in calendar order: each
day in the result is strictly earlier than every day that follows it. -/
theorem GetUniqueDays_after_sort_in_calendar_order (c : CarCountData)
    (hc : ∀ e ∈ c.Entries, noWrap e.Timestamp) :
    (GetUniqueDays (SortByTimestamp c)).Pairwise (fun a b => dayBefore a b = true) := by
  have hperm : (SortByTimestamp c).Entries.Perm c.Entries := outerLoop_perm _ _ _
  have hs : (SortByTimestamp c).Entries.Pairwise (fun x y => x.Timestamp ≤ y.Timestamp) :=
    outerLoop_sorted (fun e => e.Timestamp) c.Entries
  have hc1 : ∀ e ∈ (SortByTimestamp c).Entries, noWrap e.Timestamp :=
    fun e he => hc e (hperm.mem_iff.1 he)
  generalize SortByTimestamp c = s at hs hc1 ⊢
  have hk : (s.Entries.map fun e => dayOf e.Timestamp).Pairwise
      (fun a b => a = b ∨ dayBefore a b = true) := by
    rw [List.pairwise_map]
    refine hs.imp_of_mem ?_
    intro a b ha hb hab
    exact dayOf_order _ _ (hc1 a ha) (hc1 b hb) hab
  obtain ⟨sub, hsub, he⟩ := collect_sublist (s.Entries.map fun e => dayOf e.Timestamp) []
  have hres : GetUniqueDays s = sub := by
    rw [GetUniqueDays_eq_foldl, he]
    simp
  have hn : sub.Nodup := hres ▸ GetUniqueDays_nodup s
  have hand := (hk.sublist hsub).and hn
  rw [hres]
  refine hand.imp ?_
  intro a b hab
  rcases hab.1 with h | h
  · exact absurd h hab.2
  · exact h

theorem GetUniqueDays_after_sort_in_calendar_order_witness :
    GetUniqueDays (SortByTimestamp ⟨[⟨7, 253402300800⟩, ⟨18, 1638696600⟩, ⟨2, -62167219201⟩,
        ⟨5, 1638334800⟩, ⟨1, 253402300799⟩, ⟨3, -62167219200⟩, ⟨33, 1638700200⟩,
        ⟨4, -9223372028715321600⟩, ⟨6, 9223372036854775807⟩]⟩)
      = ["-292277022399-01-01".toList, "-0001-12-31".toList, "0000-01-01".toList,
          "2021-12-01".toList, "2021-12-05".toList, "9999-12-31".toList, "10000-01-01".toList,
          "292277026596-12-04".toList] ∧
    (GetUniqueDays (SortByTimestamp ⟨[⟨7, 253402300800⟩, ⟨18, 1638696600⟩, ⟨2, -62167219201⟩,
        ⟨5, 1638334800⟩, ⟨1, 253402300799⟩, ⟨3, -62167219200⟩, ⟨33, 1638700200⟩,
        ⟨4, -9223372028715321600⟩, ⟨6, 9223372036854775807⟩]⟩)).Pairwise
      (fun a b => dayBefore a b = true) :=
  ⟨by decide, GetUniqueDays_after_sort_in_calendar_order
    ⟨[⟨7, 253402300800⟩, ⟨18, 1638696600⟩, ⟨2, -62167219201⟩,
        ⟨5, 1638334800⟩, ⟨1, 253402300799⟩, ⟨3, -62167219200⟩, ⟨33, 1638700200⟩,
        ⟨4, -9223372028715321600⟩, ⟨6, 9223372036854775807⟩]⟩ (by unfold noWrap; decide)⟩

/-- C18 (counterexample). The least `int64` timestamp wraps around in `time.Unix` and is
formatted in year 292277026596. Sorted before timestamp 0, its day comes first in the result
of `GetUniqueDays`, although it is the later calendar day: "1970-01-01" is earlier than
"292277026596-12-04", not the other way round. -/
theorem GetUniqueDays_after_sort_not_in_order :
    GetUniqueDays (SortByTimestamp ⟨[⟨1, 0⟩, ⟨1, -9223372036854775808⟩]⟩)
      = ["292277026596-12-04".toList, "1970-01-01".toList] ∧
    dayBefore "292277026596-12-04".toList "1970-01-01".toList = false ∧
    dayBefore "1970-01-01".toList "292277026596-12-04".toList = true := by
  refine ⟨by decide, by decide, by decide⟩

end Aips
